import Mathlib

/-!
# Verification of the AI-Roadmap-Generator markdown pipeline

A shallow embedding of the front-end text-processing core of the
AI-Roadmap-Generator repository (`public/app.js` and its auth-enabled
variant, whose text-processing functions are byte-identical):

* `renderMarkdown`   — the inline markdown → HTML renderer,
* `stripLinksFromMarkdown` / `stripLinksExceptRecommendedResources` —
  the link sanitizer,
* `getSubsectionTitle` — the subsection classifier,
* `parseSectionMeta` / `buildCollapsibleRoadmap` — the document
  segmenter and collapsible document builder,
* `renderRoadmapLineByLine` — the progressive revealer with its
  render-job identifier check.

The JavaScript operates on strings with global ECMAScript regexes.  We
model strings as `List Char` and each `String.prototype.replace` pass as
a left-to-right scanner.  ECMAScript specifics that matter and are
reproduced here:

* `.` matches any character except the line terminators
  `\n`, `\r`, U+2028, U+2029;
* `\s` is the ECMAScript white-space class (includes line terminators);
* with the `m` flag, `^` matches at the string start or right after a
  line terminator, and `$` right before a line terminator or at the end;
* quantifiers are greedy with backtracking (`+?` is lazy), and global
  replacement proceeds left to right, resuming after each match.

Scanners take a fuel argument for structural recursion; every step
consumes at least one character, and all entry points pass
`length + 1` fuel, so the fuel never runs out.  Case mappings are the
ASCII ones (the repository only feeds the case-insensitive regexes
ASCII letters of tags, URL schemes and heading keywords).
-/

/-- ECMAScript line terminators (`\n`, `\r`, U+2028, U+2029): excluded
by `.`, and delimiting `^`/`$` in multiline mode. -/
def jsIsLineTerm (c : Char) : Bool :=
  c = '\n' || c = '\r' || c = '\u2028' || c = '\u2029'

/-- ECMAScript `\s` (WhiteSpace ∪ LineTerminator). -/
def jsIsSpace (c : Char) : Bool :=
  c = ' ' || c = '\t' || c = '\n' || c = '\u000b' || c = '\u000c' ||
  c = '\r' || c = '\u00a0' || c = '\u1680' ||
  ('\u2000' ≤ c && c ≤ '\u200a') ||
  c = '\u2028' || c = '\u2029' || c = '\u202f' || c = '\u205f' ||
  c = '\u3000' || c = '\ufeff'

/-- ECMAScript `\d`. -/
def jsIsDigit (c : Char) : Bool := '0' ≤ c && c ≤ '9'

/-- ECMAScript `\w` (ASCII word characters). -/
def jsIsWord (c : Char) : Bool :=
  ('a' ≤ c && c ≤ 'z') || ('A' ≤ c && c ≤ 'Z') || jsIsDigit c || c = '_'

/-- Case-insensitive ASCII character comparison (the `i` regex flag):
`d` is a pattern character (lower-case letter or symbol), which the
input character `c` matches directly or as its upper-case form. -/
def ciEq (c d : Char) : Bool := c = d || c = d.toUpper

/-- `leadsWith l p`: the literal `p` matches at the start of `l`. -/
def leadsWith : List Char → List Char → Bool
  | _, [] => true
  | [], _ :: _ => false
  | c :: cs, p :: ps => c = p && leadsWith cs ps

/-- Case-insensitive variant of `leadsWith`. -/
def ciLeads : List Char → List Char → Bool
  | _, [] => true
  | [], _ :: _ => false
  | c :: cs, p :: ps => ciEq c p && ciLeads cs ps

/-- Replace every occurrence of the character `c` by the string `r`
(the HTML-escape passes `&`→`&amp;`, `<`→`&lt;`, `>`→`&gt;`). -/
def repChar (c : Char) (r : List Char) : List Char → List Char
  | [] => []
  | x :: xs => (if x = c then r else [x]) ++ repChar c r xs

/-- Global regex replacement for an unanchored pattern: at each
position try `step`; on a match emit the replacement and resume after
the consumed text, otherwise emit the character and move on.  `step`
returns `(replacement, rest)` and always consumes at least one
character, so fuel `length + 1` suffices. -/
def gscan (step : List Char → Option (List Char × List Char)) :
    Nat → List Char → List Char
  | 0, l => l
  | _ + 1, [] => []
  | fuel + 1, c :: cs =>
    match step (c :: cs) with
    | some (repl, rest) => repl ++ gscan step fuel rest
    | none => c :: gscan step fuel cs

/-- Global regex replacement for a `^`-anchored multiline pattern:
`step` is attempted only at line starts (string start or right after a
line terminator).  No step of this development ever ends its match with
a line terminator (each match ends with a `.*`/`.+` capture, or with a
non-terminator white-space character, or at the end of the input), so
after a match the scanner resumes in mid-line state. -/
def gscanL (step : List Char → Option (List Char × List Char)) :
    Nat → Bool → List Char → List Char
  | 0, _, l => l
  | _ + 1, _, [] => []
  | fuel + 1, atStart, c :: cs =>
    if atStart then
      match step (c :: cs) with
      | some (repl, rest) => repl ++ gscanL step fuel false rest
      | none => c :: gscanL step fuel (jsIsLineTerm c) cs
    else c :: gscanL step fuel (jsIsLineTerm c) cs

/-- Run an unanchored global replacement with adequate fuel. -/
def runA (step : List Char → Option (List Char × List Char))
    (l : List Char) : List Char :=
  gscan step (l.length + 1) l

/-- Run a line-anchored global replacement with adequate fuel. -/
def runL (step : List Char → Option (List Char × List Char))
    (l : List Char) : List Char :=
  gscanL step (l.length + 1) true l

/-- One heading pass `^#…# (.*$)` → `<hk>$1</hk>`: a fixed run of `#`,
one literal space, then the rest of the line. -/
def tryHead (hashes opener closer : List Char) (x : List Char) :
    Option (List Char × List Char) :=
  if leadsWith x (hashes ++ [' ']) then
    let r := x.drop (hashes.length + 1)
    let cap := r.takeWhile (fun c => !jsIsLineTerm c)
    some (opener ++ cap ++ closer, r.drop cap.length)
  else none

/-- Lazy `(.+?)` followed by the literal `delim`: the shortest
non-empty run of non-terminator characters after which `delim`
matches.  Returns the capture and the text after the delimiter. -/
def lazyCapture (delim : List Char) : List Char → Option (List Char × List Char)
  | [] => none
  | c :: cs =>
    if jsIsLineTerm c then none
    else if leadsWith cs delim then some ([c], cs.drop delim.length)
    else
      match lazyCapture delim cs with
      | some (cap, rest) => some (c :: cap, rest)
      | none => none

/-- Emphasis pass `delim(.+?)delim` → `opener$1closer` (the
`***`/`**`/`*` passes). -/
def tryEmph (delim opener closer : List Char) (x : List Char) :
    Option (List Char × List Char) :=
  if leadsWith x delim then
    match lazyCapture delim (x.drop delim.length) with
    | some (cap, rest) => some (opener ++ cap ++ closer, rest)
    | none => none
  else none

/-- Bullet pass `^\s*[-*] (.*$)` → `<li>$1</li>`.  The greedy `\s*`
consumes the maximal white-space run (it cannot stop earlier: the
bullet marker is not white space), which may span line terminators. -/
def tryBullet (x : List Char) : Option (List Char × List Char) :=
  let w := x.takeWhile jsIsSpace
  match x.drop w.length with
  | m :: ' ' :: r =>
    if m = '-' || m = '*' then
      let cap := r.takeWhile (fun c => !jsIsLineTerm c)
      some ("<li>".data ++ cap ++ "</li>".data, r.drop cap.length)
    else none
  | _ => none

/-- Numbered-list pass `^\s*\d+\.\s+(.*$)` → `<li>$1</li>`.  All
quantifiers resolve greedily without backtracking: after the maximal
`\s+` run the next character is not white space, hence not a line
terminator, so `(.*$)` always succeeds there. -/
def tryNum (x : List Char) : Option (List Char × List Char) :=
  let w := x.takeWhile jsIsSpace
  let t := x.drop w.length
  let ds := t.takeWhile jsIsDigit
  if ds.isEmpty then none
  else
    match t.drop ds.length with
    | '.' :: r =>
      let sp := r.takeWhile jsIsSpace
      if sp.isEmpty then none
      else
        let r2 := r.drop sp.length
        let cap := r2.takeWhile (fun c => !jsIsLineTerm c)
        some ("<li>".data ++ cap ++ "</li>".data, r2.drop cap.length)
    | _ => none

/-- Largest index `j` of `l` at which `pat` matches case-insensitively
(the backtracked landing spot of a greedy `.*` before a literal). -/
def lastHit (pat : List Char) : List Char → Option Nat
  | [] => none
  | c :: cs =>
    match lastHit pat cs with
    | some j => some (j + 1)
    | none => if ciLeads (c :: cs) pat then some 0 else none

/-- List-wrapping pass `(<li>.*<\/li>)` → `<ul>$1</ul>` (`i` flag).
`.*` cannot cross a line terminator, so the match runs from a `<li>`
to the last `</li>` on the same line; a `</li>` cannot overlap the
opening `<li>`, so any hit starts at offset ≥ 4. -/
def tryWrap (x : List Char) : Option (List Char × List Char) :=
  if ciLeads x "<li>".data then
    let ln := x.takeWhile (fun c => !jsIsLineTerm c)
    match lastHit "</li>".data ln with
    | some j =>
      some ("<ul>".data ++ ln.take (j + 5) ++ "</ul>".data, x.drop (j + 5))
    | none => none
  else none

/-- The paragraph pass's negative lookahead
`(?!<h\d|<ul>|<li>|<\/li>|<\/ul>)`. -/
def paraBlocked (t : List Char) : Bool :=
  (match t with
   | '<' :: 'h' :: d :: _ => jsIsDigit d
   | _ => false) ||
  leadsWith t "<ul>".data || leadsWith t "<li>".data ||
  leadsWith t "</li>".data || leadsWith t "</ul>".data

/-- Split `w` as `a ++ c :: b` where `c` is the last non-terminator
character of `w` (so `b` is all line terminators). -/
def lastNonTermSplit : List Char → Option (List Char × Char × List Char)
  | [] => none
  | c :: cs =>
    match lastNonTermSplit cs with
    | some (a, d, b) => some (c :: a, d, b)
    | none => if jsIsLineTerm c then none else some ([], c, cs)

/-- Paragraph pass `^\s*(?!<h\d|<ul>|<li>|<\/li>|<\/ul>)(.+)$` →
`<p>$1</p>`.  The greedy `\s*` first consumes the maximal white-space
run `w`; if the lookahead fails there or the input ends, it backtracks
to the last position inside `w` holding a non-terminator character
(white space never begins one of the lookahead literals), from which
`(.+)` can start. -/
def tryPara (x : List Char) : Option (List Char × List Char) :=
  let w := x.takeWhile jsIsSpace
  let t := x.drop w.length
  if !t.isEmpty && !paraBlocked t then
    let cap := t.takeWhile (fun c => !jsIsLineTerm c)
    some ("<p>".data ++ cap ++ "</p>".data, t.drop cap.length)
  else
    match lastNonTermSplit w with
    | some (_, c, b) =>
      let cap := (c :: (b ++ t)).takeWhile (fun ch => !jsIsLineTerm ch)
      some ("<p>".data ++ cap ++ "</p>".data, (c :: (b ++ t)).drop cap.length)
    | none => none

/-- The full `renderMarkdown` pass pipeline on character lists, in
source order: HTML escaping, headings `h6`…`h1`, emphasis, bullet and
numbered list items, list wrapping, paragraphs. -/
def rmPasses (l : List Char) : List Char :=
  let e0 := repChar '&' "&amp;".data l
  let e1 := repChar '<' "&lt;".data e0
  let e2 := repChar '>' "&gt;".data e1
  let h6 := runL (tryHead "######".data "<h6>".data "</h6>".data) e2
  let h5 := runL (tryHead "#####".data "<h5>".data "</h5>".data) h6
  let h4 := runL (tryHead "####".data "<h4>".data "</h4>".data) h5
  let h3 := runL (tryHead "###".data "<h3>".data "</h3>".data) h4
  let h2 := runL (tryHead "##".data "<h2>".data "</h2>".data) h3
  let h1 := runL (tryHead "#".data "<h1>".data "</h1>".data) h2
  let b3 := runA (tryEmph "***".data "<strong><em>".data "</em></strong>".data) h1
  let b2 := runA (tryEmph "**".data "<strong>".data "</strong>".data) b3
  let b1 := runA (tryEmph "*".data "<em>".data "</em>".data) b2
  let bl := runL tryBullet b1
  let nl := runL tryNum bl
  let wr := runA tryWrap nl
  runL tryPara wr

/-- `renderMarkdown` (`app.js`): simple markdown → HTML renderer for
headings, bullets and emphasis; returns `""` for falsy input. -/
def renderMarkdown (md : String) : String :=
  if md = "" then "" else ⟨rmPasses md.data⟩

/-- The character class `[^\s)]` of the URL tail in the link regexes. -/
def inUrlClass (c : Char) : Bool := !jsIsSpace c && c != ')'

/-- The two literal shapes of a case-insensitive `https?://` scheme:
`http://` (seven characters) or `https://` (eight). -/
def stemLit (s : List Char) : Bool :=
  match s with
  | [c1, c2, c3, c4, cc, s1, s2] =>
    ciEq c1 'h' && ciEq c2 't' && ciEq c3 't' && ciEq c4 'p' &&
    cc = ':' && s1 = '/' && s2 = '/'
  | [c1, c2, c3, c4, c5, cc, s1, s2] =>
    ciEq c1 'h' && ciEq c2 't' && ciEq c3 't' && ciEq c4 'p' && ciEq c5 's' &&
    cc = ':' && s1 = '/' && s2 = '/'
  | _ => false

/-- Consume a case-insensitive `https?://` scheme.  The greedy `s?`
needs no backtracking, and the two stem shapes are mutually exclusive
(the fifth character is `:` in one and `s`/`S` in the other), so
matching the seven- then the eight-character shape is equivalent. -/
def stripHttpStem (x : List Char) : Option (List Char) :=
  if stemLit (x.take 7) then some (x.drop 7)
  else if stemLit (x.take 8) then some (x.drop 8)
  else none

/-- Markdown-link pass `\[([^\]]+)\]\((https?:\/\/[^\s)]+)\)` → `$1`
(`gi`): `[label](url)` collapses to its label. -/
def tryLink (x : List Char) : Option (List Char × List Char) :=
  match x with
  | '[' :: r1 =>
    let label := r1.takeWhile (fun c => c != ']')
    if label.isEmpty then none
    else
      match r1.drop label.length with
      | ']' :: '(' :: r2 =>
        match stripHttpStem r2 with
        | some r3 =>
          let url := r3.takeWhile inUrlClass
          if url.isEmpty then none
          else
            match r3.drop url.length with
            | ')' :: r4 => some (label, r4)
            | _ => none
        | none => none
      | _ => none
  | _ => none

/-- Autolink pass `<https?:\/\/[^>]+>` → `""` (`gi`). -/
def tryAngle (x : List Char) : Option (List Char × List Char) :=
  match x with
  | '<' :: r1 =>
    match stripHttpStem r1 with
    | some r2 =>
      let body := r2.takeWhile (fun c => c != '>')
      if body.isEmpty then none
      else
        match r2.drop body.length with
        | '>' :: r3 => some ([], r3)
        | _ => none
    | none => none
  | _ => none

/-- Bare-URL pass `https?:\/\/[^\s)]+` → `""` (`gi`): a scheme followed
by at least one non-space, non-`)` character; the greedy class run is
maximal. -/
def tryBare (x : List Char) : Option (List Char × List Char) :=
  match stripHttpStem x with
  | some t =>
    let url := t.takeWhile inUrlClass
    if url.isEmpty then none else some ([], t.drop url.length)
  | none => none

/-- Space or tab (the class `[ \t]`). -/
def isSpTab (c : Char) : Bool := c = ' ' || c = '\t'

/-- Cleanup pass `[ \t]{2,}` → `" "`: each maximal run of two or more
spaces/tabs collapses to a single space. -/
def trySpaceRun : List Char → Option (List Char × List Char)
  | c :: d :: r =>
    if isSpTab c && isSpTab d then some ([' '], (d :: r).dropWhile isSpTab)
    else none
  | _ => none

/-- Cleanup pass `\n{3,}` → `"\n\n"`: each maximal run of three or more
newlines collapses to two. -/
def tryNlRun : List Char → Option (List Char × List Char)
  | '\n' :: '\n' :: '\n' :: r => some ("\n\n".data, r.dropWhile (fun c => c = '\n'))
  | _ => none

/-- Drop matching characters from the end of a list. -/
def dropEndWhile (p : Char → Bool) (l : List Char) : List Char :=
  (l.reverse.dropWhile p).reverse

/-- `String.prototype.trim` (strips ECMAScript white space and line
terminators from both ends). -/
def jsTrimL (l : List Char) : List Char :=
  dropEndWhile jsIsSpace (l.dropWhile jsIsSpace)

/-- The `stripLinksFromMarkdown` pass pipeline on character lists:
markdown links → labels, autolinks removed, bare URLs removed, then
space-run and newline-run collapsing and a final trim. -/
def slPasses (l : List Char) : List Char :=
  let p1 := runA tryLink l
  let p2 := runA tryAngle p1
  let p3 := runA tryBare p2
  jsTrimL (runA tryNlRun (runA trySpaceRun p3))

/-- `stripLinksFromMarkdown` (`app.js`). -/
def stripLinksFromMarkdown (md : String) : String :=
  if md = "" then "" else ⟨slPasses md.data⟩

/-- `String.prototype.split(/\r?\n/)` on character lists: the greedy
`\r?` makes `\r\n` a single separator, while a lone `\r` stays in the
line. -/
def splitLinesL : List Char → List (List Char)
  | [] => [[]]
  | '\r' :: '\n' :: rest => [] :: splitLinesL rest
  | '\n' :: rest => [] :: splitLinesL rest
  | c :: rest =>
    match splitLinesL rest with
    | l :: ls => (c :: l) :: ls
    | [] => [[c]]

/-- Join lines with `"\n"` (`Array.prototype.join("\n")`). -/
def joinNl : List (List Char) → List Char
  | [] => []
  | [l] => l
  | l :: ls => l ++ '\n' :: joinNl ls

/-- Strip a leading `#{1,6}\s+` heading marker (no match when the `#`
run is longer than six or no white space follows). -/
def stripHeadMarker (l : List Char) : List Char :=
  let hs := l.takeWhile (fun c => c = '#')
  if hs.isEmpty || hs.length > 6 then l
  else
    let r := l.drop hs.length
    let w := r.takeWhile jsIsSpace
    if w.isEmpty then l else r.drop w.length

/-- Strip a leading `\s*[-*+]\s+` bullet marker. -/
def stripBulletMarkerPlus (l : List Char) : List Char :=
  let w := l.takeWhile jsIsSpace
  match l.drop w.length with
  | m :: r =>
    if m = '-' || m = '*' || m = '+' then
      let w2 := r.takeWhile jsIsSpace
      if w2.isEmpty then l else r.drop w2.length
    else l
  | [] => l

/-- Strip a leading `\s*\d+\.\s+` numbered marker. -/
def stripNumMarker (l : List Char) : List Char :=
  let w := l.takeWhile jsIsSpace
  let t := l.drop w.length
  let ds := t.takeWhile jsIsDigit
  if ds.isEmpty then l
  else
    match t.drop ds.length with
    | '.' :: r =>
      let w2 := r.takeWhile jsIsSpace
      if w2.isEmpty then l else r.drop w2.length
    | _ => l

/-- `.replace(/\*\*/g, "")`: delete every (leftmost-first) `**` pair. -/
def stripDoubleStars : List Char → List Char
  | '*' :: '*' :: r => stripDoubleStars r
  | c :: r => c :: stripDoubleStars r
  | [] => []

/-- The per-line normalization inside
`stripLinksExceptRecommendedResources`: strip heading, bullet and
numbered markers and `**`, trim, lower-case. -/
def slerNormalizeL (l : List Char) : List Char :=
  (jsTrimL (stripDoubleStars (stripNumMarker (stripBulletMarkerPlus
    (stripHeadMarker l))))).map Char.toLower

/-- `\b` right after a literal that ends in a word character: the next
character must not be a word character. -/
def wordBoundaryAfter : List Char → Bool
  | [] => true
  | c :: _ => !jsIsWord c

/-- `/^recommended\s*resources\b/` on the (lower-cased) normalized
line: the region-opening test. -/
def recResOpen (n : List Char) : Bool :=
  if leadsWith n "recommended".data then
    let r := (n.drop 11).dropWhile jsIsSpace
    leadsWith r "resources".data && wordBoundaryAfter (r.drop 9)
  else false

/-- One literal alternative of the region-closing regex, with its
trailing `\b`. -/
def litWithBoundary (lit : String) (n : List Char) : Bool :=
  leadsWith n lit.data && wordBoundaryAfter (n.drop lit.data.length)

/-- The `phase\s+\d+` alternative of the region-closing regex. -/
def phaseNumAlt (n : List Char) : Bool :=
  if leadsWith n "phase".data then
    let r := n.drop 5
    let w := r.takeWhile jsIsSpace
    if w.isEmpty then false
    else
      let t := r.drop w.length
      let ds := t.takeWhile jsIsDigit
      !ds.isEmpty && wordBoundaryAfter (t.drop ds.length)
  else false

/-- The region-closing test
`/^(duration|objectives|concrete tasks\/activities|concrete tasks|suggested project ideas|phase\s+\d+|yt tutorials|tips for staying consistent|how to measure progress|recommended next step)\b/`. -/
def closeHeading (n : List Char) : Bool :=
  litWithBoundary "duration" n || litWithBoundary "objectives" n ||
  litWithBoundary "concrete tasks/activities" n ||
  litWithBoundary "concrete tasks" n ||
  litWithBoundary "suggested project ideas" n ||
  phaseNumAlt n || litWithBoundary "yt tutorials" n ||
  litWithBoundary "tips for staying consistent" n ||
  litWithBoundary "how to measure progress" n ||
  litWithBoundary "recommended next step" n

/-- The per-line loop of `stripLinksExceptRecommendedResources`: a
region-opening line is kept verbatim and sets the flag; a
region-closing heading clears it; every other line is kept verbatim
inside the region and stripped outside it. -/
def slerLoop : List (List Char) → Bool → List (List Char)
  | [], _ => []
  | l :: ls, inRR =>
    let n := slerNormalizeL l
    if recResOpen n then l :: slerLoop ls true
    else
      let inRR2 := if closeHeading n then false else inRR
      (if inRR2 then l else slPasses l) :: slerLoop ls inRR2

/-- `stripLinksExceptRecommendedResources` (`app.js`). -/
def stripLinksExceptRecommendedResources (md : String) : String :=
  if md = "" then ""
  else ⟨jsTrimL (runA tryNlRun (joinNl (slerLoop (splitLinesL md.data) false)))⟩

/-- The unanchored search `/recommended\s*resources/i.test(·)`. -/
def recResAt (x : List Char) : Bool :=
  if ciLeads x "recommended".data then
    ciLeads ((x.drop 11).dropWhile jsIsSpace) "resources".data
  else false

/-- Whether `/recommended\s*resources/i` matches anywhere. -/
def containsRecRes : List Char → Bool
  | [] => false
  | c :: cs => recResAt (c :: cs) || containsRecRes cs

/-- `sanitizeSectionMarkdown` (`app.js`): Recommended Resources
sections pass through unsanitized, all others are stripped. -/
def sanitizeSectionMarkdown (title md : String) : String :=
  if containsRecRes title.data then md
  else stripLinksExceptRecommendedResources md

/-- `escapeHtml` (`app.js`): escape `&`, `<`, `>`. -/
def escapeHtml (t : String) : String :=
  ⟨repChar '>' "&gt;".data (repChar '<' "&lt;".data (repChar '&' "&amp;".data t.data))⟩

/-- Strip a leading `\s*[-*+]\s*` marker (the `parseSectionMeta`
variant: white space after the marker is optional). -/
def stripBulletMarkerStar (l : List Char) : List Char :=
  let w := l.takeWhile jsIsSpace
  match l.drop w.length with
  | m :: r =>
    if m = '-' || m = '*' || m = '+' then r.drop (r.takeWhile jsIsSpace).length
    else l
  | [] => l

/-- `normalizeHeadingCandidate` (`app.js`) on character lists: strip
heading, bullet (`\s+` variant) and numbered markers and `**`, trim. -/
def normalizeHeadingCandidateL (l : List Char) : List Char :=
  jsTrimL (stripDoubleStars (stripNumMarker (stripBulletMarkerPlus
    (stripHeadMarker l))))

/-- ASCII letter (the class `[A-Za-z]`). -/
def isAsciiLetter (c : Char) : Bool :=
  ('a' ≤ c && c ≤ 'z') || ('A' ≤ c && c ≤ 'Z')

/-- `([A-Za-z])-([A-Za-z])` → `$1 $2`, global: scanning resumes after
each match, so of two overlapping dashes only the first is rewritten. -/
def letterDashLetter : List Char → List Char
  | a :: '-' :: b :: r =>
    if isAsciiLetter a && isAsciiLetter b then a :: ' ' :: b :: letterDashLetter r
    else a :: letterDashLetter ('-' :: b :: r)
  | c :: r => c :: letterDashLetter r
  | [] => []

/-- `\s+` → `" "` as a scanner step. -/
def tryWsRun : List Char → Option (List Char × List Char)
  | c :: r => if jsIsSpace c then some ([' '], r.dropWhile jsIsSpace) else none
  | [] => none

/-- `\b\w` → upper case: capitalize every word character that starts a
word (previous character not a word character). -/
def upWordStarts : List Char → Bool → List Char
  | [], _ => []
  | c :: r, prevW =>
    (if jsIsWord c && !prevW then c.toUpper else c) :: upWordStarts r (jsIsWord c)

/-- `toTitleCase` (`app.js`) on character lists: trim, underscores to
spaces, split letter-dash-letter, collapse white space, capitalize
word starts. -/
def toTitleCaseL (t : List Char) : List Char :=
  upWordStarts (runA tryWsRun (letterDashLetter (repChar '_' [' '] (jsTrimL t)))) false

/-- `toTitleCase` (`app.js`). -/
def toTitleCase (t : String) : String := ⟨toTitleCaseL t.data⟩

/-- Group 2 of `/^(#{1,6})\s+(.+)$/` (no `m` flag: `$` is the string
end, `.` excludes line terminators).  The greedy `\s+` backtracks from
the maximal white-space run down to one character until the capture is
non-empty and terminator-free through the end. -/
def greedyWsCapAux (r : List Char) : Nat → Option (List Char)
  | 0 => none
  | k + 1 =>
    let cap := r.drop (k + 1)
    if !cap.isEmpty && cap.all (fun c => !jsIsLineTerm c) then some cap
    else greedyWsCapAux r k

/-- The heading match of `parseSectionMeta`: `line.match(/^(#{1,6})\s+(.+)$/)`,
returning the captured heading text. -/
def headingCapture (l : List Char) : Option (List Char) :=
  let hs := l.takeWhile (fun c => c = '#')
  if hs.isEmpty || hs.length > 6 then none
  else greedyWsCapAux (l.drop hs.length) ((l.drop hs.length).takeWhile jsIsSpace).length

/-- Digit-string value (the repository's phase numbers are small, where
`Number` on a digit string is exact). -/
def digitsToNat (ds : List Char) : Nat :=
  ds.foldl (fun a c => a * 10 + (c.toNat - 48)) 0

/-- `/^phase\s+(\d+)\s*:/i`: the phase-heading test of
`parseSectionMeta`, returning the parsed number. -/
def phaseMatchNum (n : List Char) : Option Nat :=
  if ciLeads n "phase".data then
    let r := n.drop 5
    let w := r.takeWhile jsIsSpace
    if w.isEmpty then none
    else
      let t := r.drop w.length
      let ds := t.takeWhile jsIsDigit
      if ds.isEmpty then none
      else
        match (t.drop ds.length).dropWhile jsIsSpace with
        | ':' :: _ => some (digitsToNat ds)
        | _ => none
  else none

/-- `/^yt\s*tutorials\b/i`: the YT-heading test of `parseSectionMeta`. -/
def ytMatch (n : List Char) : Bool :=
  if ciLeads n "yt".data then
    let r := (n.drop 2).dropWhile jsIsSpace
    ciLeads r "tutorials".data && wordBoundaryAfter (r.drop 9)
  else false

/-- `Number.MAX_SAFE_INTEGER`, the sentinel phase number of YT
sections. -/
def maxSafeInteger : Nat := 9007199254740991

/-- The section metadata produced by `parseSectionMeta`: a kind tag
(`"phase"` or `"yt"` in the source), a phase number and a display
title. -/
structure SectionMeta where
  stype : String
  phaseNumber : Nat
  title : String
deriving DecidableEq, Repr

/-- `parseSectionMeta` (`app.js`): recognize `Phase N:` and
`YT Tutorials` section headings. -/
def parseSectionMeta (line : List Char) : Option SectionMeta :=
  let rawText := (headingCapture line).getD line
  let normalized := jsTrimL (stripDoubleStars (stripNumMarker
    (stripBulletMarkerStar rawText)))
  match phaseMatchNum normalized with
  | some k => some ⟨"phase", k, ⟨toTitleCaseL normalized⟩⟩
  | none =>
    if ytMatch normalized then some ⟨"yt", maxSafeInteger, "YT Tutorials"⟩
    else none

/-- A recognized section: its metadata plus accumulated content lines. -/
structure Sec where
  stype : String
  phaseNumber : Nat
  title : String
  content : List (List Char)
deriving DecidableEq, Repr

/-- The line loop of `buildCollapsibleRoadmap`: split lines into intro
lines (before the first recognized heading) and sections. -/
def collectLoop : List (List Char) → List (List Char) → List Sec → Option Sec →
    List (List Char) × List Sec
  | [], intro, secs, cur => (intro, secs ++ cur.toList)
  | line :: rest, intro, secs, cur =>
    match parseSectionMeta line with
    | some m => collectLoop rest intro (secs ++ cur.toList)
        (some ⟨m.stype, m.phaseNumber, m.title, []⟩)
    | none =>
      match cur with
      | some c => collectLoop rest intro secs
          (some ⟨c.stype, c.phaseNumber, c.title, c.content ++ [line]⟩)
      | none => collectLoop rest (intro ++ [line]) secs none

/-- `/^duration(\s*\(.*\))?$/` (no flags: `$` is the string end).  The
optional group needs `(` after optional white space and `)` as the
final character, with no line terminator in between (`.` excludes
them). -/
def matchDuration (n : List Char) : Bool :=
  if leadsWith n "duration".data then
    let r := n.drop 8
    r.isEmpty ||
      (match r.drop (r.takeWhile jsIsSpace).length with
       | '(' :: m =>
         !m.isEmpty && m.getLast? = some ')' &&
           m.dropLast.all (fun c => !jsIsLineTerm c)
       | _ => false)
  else false

/-- The fixed ordered pattern list of `getSubsectionTitle`: a matcher
on the normalized line together with the canonical title. -/
def subPatterns : List ((List Char → Bool) × String) :=
  [ (matchDuration, "Duration"),
    (fun n => n = "objective".data || n = "objectives".data, "Objectives"),
    (fun n => n = "concrete tasks/activities".data, "Concrete Tasks/Activities"),
    (fun n => n = "concrete tasks".data, "Concrete Tasks/Activities"),
    (fun n => n = "tasks/activities".data, "Concrete Tasks/Activities"),
    (fun n => n = "suggested project idea".data || n = "suggested project ideas".data,
      "Suggested Project Ideas"),
    (fun n => n = "recommended resource".data || n = "recommended resources".data,
      "Recommended Resources"),
    (fun n => n = "resource".data || n = "resources".data, "Recommended Resources"),
    (fun n => n = "tips for staying consistent".data, "Tips For Staying Consistent"),
    (fun n => n = "how to measure progress".data, "How To Measure Progress"),
    (fun n => n = "recommended next step".data, "Recommended Next Step") ]

/-- The normalized form `getSubsectionTitle` matches against:
`normalizeHeadingCandidate`, then strip trailing `[:\-]+`, then
lower-case. -/
def subNormalize (l : List Char) : List Char :=
  (dropEndWhile (fun c => c = ':' || c = '-') (normalizeHeadingCandidateL l)).map
    Char.toLower

/-- `getSubsectionTitle` (`app.js`): first matching pattern wins. -/
def getSubsectionTitleL (l : List Char) : Option String :=
  ((subPatterns.find? (fun p => p.1 (subNormalize l))).map (fun p => p.2))

/-- `getSubsectionTitle` on strings. -/
def getSubsectionTitle (line : String) : Option String :=
  getSubsectionTitleL line.data

/-- A subsection: canonical title plus its content lines. -/
structure Subsec where
  title : String
  lines : List (List Char)
deriving DecidableEq, Repr

/-- The loop of `splitPhaseContentIntoSubsections`: preface lines
before the first recognized subsection heading, then one subsection
per heading. -/
def splitPhaseLoop : List (List Char) → List (List Char) → List Subsec →
    Option Subsec → List (List Char) × List Subsec
  | [], pre, subs, cur => (pre, subs ++ cur.toList)
  | l :: rest, pre, subs, cur =>
    match getSubsectionTitleL l with
    | some t => splitPhaseLoop rest pre (subs ++ cur.toList) (some ⟨t, []⟩)
    | none =>
      match cur with
      | some c => splitPhaseLoop rest pre subs (some ⟨c.title, c.lines ++ [l]⟩)
      | none => splitPhaseLoop rest (pre ++ [l]) subs none

/-- `splitPhaseContentIntoSubsections` (`app.js`). -/
def splitPhaseContentIntoSubsections (contentLines : List (List Char)) :
    List (List Char) × List Subsec :=
  splitPhaseLoop contentLines [] [] none

/-- Stable insertion by phase number (places an element after every
element it does not strictly precede), modelling the stable
`Array.prototype.sort` with comparator `a.phaseNumber - b.phaseNumber`. -/
def insertByNum (s : Sec) : List Sec → List Sec
  | [] => [s]
  | t :: ts =>
    if s.phaseNumber ≤ t.phaseNumber then s :: t :: ts else t :: insertByNum s ts

/-- Stable sort of sections by ascending phase number. -/
def sortByNum (l : List Sec) : List Sec := l.foldr insertByNum []

/-- The sections of a document, in order of appearance. -/
def sectionsOf (md : String) : List Sec :=
  (collectLoop (splitLinesL md.data) [] [] none).2

/-- The intro lines of a document (before the first recognized
heading). -/
def introOf (md : String) : List (List Char) :=
  (collectLoop (splitLinesL md.data) [] [] none).1

/-- `phaseSections`: phase sections sorted ascending by phase number. -/
def phaseSectionsOf (md : String) : List Sec :=
  sortByNum ((sectionsOf md).filter (fun s => s.stype == "phase"))

/-- `ytSections`: YT sections in appearance order. -/
def ytSectionsOf (md : String) : List Sec :=
  (sectionsOf md).filter (fun s => s.stype == "yt")

/-- `otherSections`: sections that are neither phase nor YT. -/
def otherSectionsOf (md : String) : List Sec :=
  (sectionsOf md).filter (fun s => !(s.stype == "phase") && !(s.stype == "yt"))

/-- The rendered intro block. -/
def introHtmlOf (md : String) : String :=
  renderMarkdown ⟨jsTrimL (joinNl (introOf md))⟩

/-- The subsection-card template literal of `buildCollapsibleRoadmap`
(exact whitespace of the source). -/
def subCardHtml (title contentHtml : String) (isOpen : Bool) : String :=
  "\n            <details class=\"roadmap-card\"" ++
  (if isOpen then " open" else "") ++
  ">\n              <summary class=\"roadmap-card-summary\">\n                <span class=\"roadmap-card-title\">" ++
  escapeHtml title ++
  "</span>\n                <span class=\"roadmap-card-icon\" aria-hidden=\"true\"></span>\n              </summary>\n              <div class=\"roadmap-card-body\">" ++
  contentHtml ++
  "</div>\n            </details>\n          "

/-- The `buildStandaloneCard` template literal (exact whitespace of the
source). -/
def standaloneCardHtml (title contentHtml : String) (isOpen : Bool) : String :=
  "\n      <details class=\"roadmap-card\"" ++
  (if isOpen then " open" else "") ++
  ">\n        <summary class=\"roadmap-card-summary\">\n          <span class=\"roadmap-card-title\">" ++
  escapeHtml title ++
  "</span>\n          <span class=\"roadmap-card-icon\" aria-hidden=\"true\"></span>\n        </summary>\n        <div class=\"roadmap-card-body\">" ++
  contentHtml ++
  "</div>\n      </details>\n    "

/-- A subsection card's body: sanitized content, or the placeholder
when the sanitized content is empty. -/
def cardContentHtml (title : String) (rawLines : List (List Char)) : String :=
  let rawContentMd : String := ⟨jsTrimL (joinNl rawLines)⟩
  let contentMd := sanitizeSectionMarkdown title rawContentMd
  renderMarkdown (if contentMd = "" then "_No details available._" else contentMd)

/-- The subsections a phase displays: the recognized ones, or a single
`Details` card holding the whole content when none were recognized. -/
def fallbackSubsOf (s : Sec) : List Subsec :=
  let subs := (splitPhaseContentIntoSubsections s.content).2
  if subs.isEmpty then [⟨"Details", s.content⟩] else subs

/-- One phase block: heading, optional sanitized preface, then one
card per (fallback) subsection; the first card of the first phase is
open. -/
def phaseBlockHtml (phaseIndex : Nat) (s : Sec) : String :=
  let pre := (splitPhaseContentIntoSubsections s.content).1
  let phaseTitleHtml := "<h3 class=\"roadmap-phase-title\">" ++ escapeHtml s.title ++ "</h3>"
  let prefaceMd : String := ⟨jsTrimL (joinNl pre)⟩
  let prefaceHtml :=
    if prefaceMd = "" then ""
    else "<div class=\"roadmap-phase-preface\">" ++
      renderMarkdown (sanitizeSectionMarkdown "Phase Intro" prefaceMd) ++ "</div>"
  let subsectionCards := String.join ((fallbackSubsOf s).enum.map
    (fun q => subCardHtml q.2.title (cardContentHtml q.2.title q.2.lines)
      (phaseIndex == 0 && q.1 == 0)))
  "<section class=\"roadmap-phase-block\">" ++ phaseTitleHtml ++ prefaceHtml ++
    subsectionCards ++ "</section>"

/-- `buildStandaloneCard` (`app.js`). -/
def buildStandaloneCard (s : Sec) (openByDefault : Bool) : String :=
  standaloneCardHtml s.title (cardContentHtml s.title s.content) openByDefault

/-- All phase blocks, in sorted order. -/
def phaseBlocksHtmlOf (md : String) : String :=
  String.join ((phaseSectionsOf md).enum.map (fun p => phaseBlockHtml p.1 p.2))

/-- All `Other` cards, in appearance order (open only when first with
no phases). -/
def otherCardsHtmlOf (md : String) : String :=
  String.join ((otherSectionsOf md).enum.map
    (fun p => buildStandaloneCard p.2 ((phaseSectionsOf md).isEmpty && p.1 == 0)))

/-- All YT cards, in appearance order (open only when first with no
phases and no others). -/
def ytCardsHtmlOf (md : String) : String :=
  String.join ((ytSectionsOf md).enum.map
    (fun p => buildStandaloneCard p.2
      ((phaseSectionsOf md).isEmpty && (otherSectionsOf md).isEmpty && p.1 == 0)))

/-- `buildCollapsibleRoadmap` (`app.js`): falsy input gives `""`; with
no recognized section the document falls back to plain inline
rendering; otherwise intro, sorted phase blocks, other cards, YT
cards. -/
def buildCollapsibleRoadmap (md : String) : String :=
  if md = "" then ""
  else if (sectionsOf md).isEmpty then renderMarkdown md
  else introHtmlOf md ++ phaseBlocksHtmlOf md ++ otherCardsHtmlOf md ++ ytCardsHtmlOf md

/-- The `open`-attribute flags of all cards of the built document, in
output order: phase-block cards, then other cards, then YT cards. -/
def openFlagsOf (md : String) : List Bool :=
  ((phaseSectionsOf md).enum.flatMap
    (fun p => (fallbackSubsOf p.2).enum.map (fun q => p.1 == 0 && q.1 == 0))) ++
  ((otherSectionsOf md).enum.map
    (fun p => (phaseSectionsOf md).isEmpty && p.1 == 0)) ++
  ((ytSectionsOf md).enum.map
    (fun p => (phaseSectionsOf md).isEmpty && (otherSectionsOf md).isEmpty && p.1 == 0))

/-- `String.prototype.split(/\r?\n/)` as strings. -/
def splitLines (s : String) : List String :=
  (splitLinesL s.data).map (fun l => ⟨l⟩)

/-- The keep-verbatim flag of each line of
`stripLinksExceptRecommendedResources`, computed by the same
region-state scan: `true` exactly when the line is pushed unchanged
(an opening heading, or a line while the flag remains set). -/
def regionFlags : List (List Char) → Bool → List Bool
  | [], _ => []
  | l :: ls, inRR =>
    let n := slerNormalizeL l
    if recResOpen n then true :: regionFlags ls true
    else
      let inRR2 := if closeHeading n then false else inRR
      inRR2 :: regionFlags ls inRR2

/-- The `renderJobId += 1` performed by `setLoading(true)` when a new
submission starts. -/
def setLoadingBumpsJob (renderJobId : Nat) : Nat := renderJobId + 1

/-- `"<p>Empty roadmap.</p>"` fallback of the final write
(`buildCollapsibleRoadmap(roadmap) || "<p>Empty roadmap.</p>"`). -/
def orEmptyRoadmap (s : String) : String :=
  if s = "" then "<p>Empty roadmap.</p>" else s

/-- The loop of `renderRoadmapLineByLine`.  `envAt k` is the value of
the shared `renderJobId` observed at the `k`-th checkpoint (the
`jobId !== renderJobId` comparison at the top of iteration `k`, and the
final one after the loop); `acc` accumulates the `innerHTML` writes
performed so far.  Returns the completion flag and the write trace. -/
def renderLoop (roadmap : String) (jobId : Nat) (envAt : Nat → Nat) :
    List String → Nat → String → List String → Bool × List String
  | [], i, _, acc =>
    if envAt i = jobId then
      (true, acc ++ [orEmptyRoadmap (buildCollapsibleRoadmap roadmap)])
    else (false, acc)
  | l :: rest, i, streamed, acc =>
    if envAt i = jobId then
      let streamed2 := if i = 0 then l else streamed ++ "\n" ++ l
      renderLoop roadmap jobId envAt rest (i + 1) streamed2
        (acc ++ [buildCollapsibleRoadmap streamed2])
    else (false, acc)

/-- `renderRoadmapLineByLine` (auth variant, `part_001`): split into
lines, clear the display, then stream growing prefixes through the
builder, aborting with `false` as soon as a checkpoint observes a
newer render job; on completion re-render the full document and
return `true`.  The write trace starts with the `""` clear performed
before the loop. -/
def renderRoadmapLineByLine (roadmap : String) (jobId : Nat)
    (envAt : Nat → Nat) : Bool × List String :=
  let lines := splitLines roadmap
  if lines.isEmpty then (false, ["<p>Empty roadmap.</p>"])
  else renderLoop roadmap jobId envAt lines 0 "" [""]

/-- Substring test: does the literal `pat` occur anywhere in `l`? -/
def containsSeg (pat : List Char) : List Char → Bool
  | [] => leadsWith [] pat
  | c :: cs => leadsWith (c :: cs) pat || containsSeg pat cs

/-- The full set of literal normalized forms accepted by the ten
non-`Duration` patterns of `getSubsectionTitle`. -/
def allLits : List (List Char) :=
  [ "objective".data, "objectives".data, "concrete tasks/activities".data,
    "concrete tasks".data, "tasks/activities".data,
    "suggested project idea".data, "suggested project ideas".data,
    "recommended resource".data, "recommended resources".data,
    "resource".data, "resources".data, "tips for staying consistent".data,
    "how to measure progress".data, "recommended next step".data ]

/-- The display writes the revealer loop performs during its first `k`
iterations, starting at line index `i` with accumulated prefix
`streamed`: one `buildCollapsibleRoadmap` of each growing prefix. -/
def renderWrites : List String → Nat → String → Nat → List String
  | _, _, _, 0 => []
  | [], _, _, _ + 1 => []
  | l :: rest, i, streamed, k + 1 =>
    let streamed2 := if i = 0 then l else streamed ++ "\n" ++ l
    buildCollapsibleRoadmap streamed2 :: renderWrites rest (i + 1) streamed2 k

/-- Whether the bare-URL pattern `https?:\/\/[^\s)]+` matches anywhere
in `l`. -/
def hasBareUrl : List Char → Bool
  | [] => false
  | c :: cs => (tryBare (c :: cs)).isSome || hasBareUrl cs

/-- A minimal bare-URL witness: a scheme followed by exactly one
URL-class character.  Any extension of a seed matches the bare-URL
pattern. -/
def seedOk (p : List Char) : Bool :=
  match stripHttpStem p with
  | some [c] => inUrlClass c
  | _ => false

section Lemmas

theorem leadsWith_iff_append {x p : List Char} :
    leadsWith x p = true ↔ ∃ t, x = p ++ t := by
  induction p generalizing x with
  | nil => simp [leadsWith]
  | cons q qs ih =>
    cases x with
    | nil => simp [leadsWith]
    | cons c cs =>
      simp only [leadsWith, Bool.and_eq_true, decide_eq_true_eq, ih,
        List.cons_append, List.cons.injEq]
      constructor
      · rintro ⟨hc, t, ht⟩
        exact ⟨t, hc, ht⟩
      · rintro ⟨t, hc, ht⟩
        exact ⟨hc, t, ht⟩

theorem gscan_eq_self (step : List Char → Option (List Char × List Char))
    (hstep : ∀ t : List Char, t ≠ [] → (∀ x ∈ t, x = '\n') → step t = none) :
    ∀ (fuel : Nat) (l : List Char), (∀ x ∈ l, x = '\n') →
      gscan step fuel l = l := by
  intro fuel
  induction fuel with
  | zero => intro l _; rfl
  | succ n ih =>
    intro l hl
    cases l with
    | nil => rfl
    | cons c cs =>
      simp only [gscan, hstep (c :: cs) (by simp) hl]
      rw [ih cs (fun x hx => hl x (List.mem_cons_of_mem c hx))]

theorem gscanL_eq_self (step : List Char → Option (List Char × List Char))
    (hstep : ∀ t : List Char, t ≠ [] → (∀ x ∈ t, x = '\n') → step t = none) :
    ∀ (fuel : Nat) (b : Bool) (l : List Char), (∀ x ∈ l, x = '\n') →
      gscanL step fuel b l = l := by
  intro fuel
  induction fuel with
  | zero => intro b l _; rfl
  | succ n ih =>
    intro b l hl
    cases l with
    | nil => rfl
    | cons c cs =>
      have htail : ∀ x ∈ cs, x = '\n' := fun x hx => hl x (List.mem_cons_of_mem c hx)
      cases b with
      | false => simp only [gscanL]; rw [ih _ cs htail]; simp
      | true =>
        simp only [gscanL, hstep (c :: cs) (by simp) hl]
        rw [ih _ cs htail]; simp

theorem repChar_eq_self (a : Char) (r l : List Char) (ha : a ≠ '\n')
    (hl : ∀ x ∈ l, x = '\n') : repChar a r l = l := by
  induction l with
  | nil => rfl
  | cons c cs ih =>
    have hc : c = '\n' := hl c (List.mem_cons_self c cs)
    simp only [repChar, ih (fun x hx => hl x (List.mem_cons_of_mem c hx))]
    rw [if_neg (by simp [hc]; exact fun he => ha he.symm)]
    simp

theorem takeWhile_all_nl (l : List Char) (hl : ∀ x ∈ l, x = '\n') :
    l.takeWhile jsIsSpace = l := by
  induction l with
  | nil => rfl
  | cons c cs ih =>
    have hc : c = '\n' := hl c (List.mem_cons_self c cs)
    subst hc
    simp only [List.takeWhile_cons]
    rw [if_pos (by decide)]
    rw [ih (fun x hx => hl x (List.mem_cons_of_mem _ hx))]

theorem lastNonTermSplit_all_nl (l : List Char) (hl : ∀ x ∈ l, x = '\n') :
    lastNonTermSplit l = none := by
  induction l with
  | nil => rfl
  | cons c cs ih =>
    have hc : c = '\n' := hl c (List.mem_cons_self c cs)
    subst hc
    simp only [lastNonTermSplit, ih (fun x hx => hl x (List.mem_cons_of_mem _ hx))]
    rw [if_pos (by decide)]

theorem leadsWith_head_ne {c : Char} {cs : List Char} {p : Char} {ps : List Char}
    (h : c ≠ p) : leadsWith (c :: cs) (p :: ps) = false := by
  simp [leadsWith, h]

end Lemmas

section NewlineIdentity

theorem tryHead_nl (hs opener closer : List Char) (hh : ∃ u, hs = '#' :: u)
    (t : List Char) (hne : t ≠ []) (hnl : ∀ x ∈ t, x = '\n') :
    tryHead hs opener closer t = none := by
  obtain ⟨u, rfl⟩ := hh
  cases t with
  | nil => exact absurd rfl hne
  | cons c cs =>
    have hc : c = '\n' := hnl c (List.mem_cons_self c cs)
    subst hc
    unfold tryHead
    rw [List.cons_append, leadsWith_head_ne (by decide)]
    rfl

theorem tryEmph_nl (delim opener closer : List Char) (hh : ∃ u, delim = '*' :: u)
    (t : List Char) (hne : t ≠ []) (hnl : ∀ x ∈ t, x = '\n') :
    tryEmph delim opener closer t = none := by
  obtain ⟨u, rfl⟩ := hh
  cases t with
  | nil => exact absurd rfl hne
  | cons c cs =>
    have hc : c = '\n' := hnl c (List.mem_cons_self c cs)
    subst hc
    unfold tryEmph
    rw [leadsWith_head_ne (by decide)]
    rfl

theorem tryBullet_nl (t : List Char) (_ : t ≠ []) (hnl : ∀ x ∈ t, x = '\n') :
    tryBullet t = none := by
  simp only [tryBullet, takeWhile_all_nl t hnl, List.drop_length]

theorem tryNum_nl (t : List Char) (_ : t ≠ []) (hnl : ∀ x ∈ t, x = '\n') :
    tryNum t = none := by
  simp only [tryNum, takeWhile_all_nl t hnl, List.drop_length]
  rfl

theorem tryWrap_nl (t : List Char) (hne : t ≠ []) (hnl : ∀ x ∈ t, x = '\n') :
    tryWrap t = none := by
  cases t with
  | nil => exact absurd rfl hne
  | cons c cs =>
    have hc : c = '\n' := hnl c (List.mem_cons_self c cs)
    subst hc
    unfold tryWrap
    have h : ciLeads ('\n' :: cs) "<li>".data = false := by
      show ciLeads ('\n' :: cs) ('<' :: "li>".data) = false
      simp [ciLeads, ciEq]
    rw [h]
    rfl

theorem tryPara_nl (t : List Char) (_ : t ≠ []) (hnl : ∀ x ∈ t, x = '\n') :
    tryPara t = none := by
  simp only [tryPara, takeWhile_all_nl t hnl, List.drop_length,
    lastNonTermSplit_all_nl t hnl]
  rfl

theorem rmPasses_all_nl (l : List Char) (hl : ∀ x ∈ l, x = '\n') :
    rmPasses l = l := by
  have hA : ∀ step, (∀ t, t ≠ [] → (∀ x ∈ t, x = '\n') → step t = none) →
      runA step l = l := fun step h => gscan_eq_self step h _ l hl
  have hL : ∀ step, (∀ t, t ≠ [] → (∀ x ∈ t, x = '\n') → step t = none) →
      runL step l = l := fun step h => gscanL_eq_self step h _ _ l hl
  simp only [rmPasses]
  rw [repChar_eq_self '&' _ l (by decide) hl,
      repChar_eq_self '<' _ l (by decide) hl,
      repChar_eq_self '>' _ l (by decide) hl,
      hL _ (tryHead_nl _ _ _ ⟨_, rfl⟩), hL _ (tryHead_nl _ _ _ ⟨_, rfl⟩),
      hL _ (tryHead_nl _ _ _ ⟨_, rfl⟩), hL _ (tryHead_nl _ _ _ ⟨_, rfl⟩),
      hL _ (tryHead_nl _ _ _ ⟨_, rfl⟩), hL _ (tryHead_nl _ _ _ ⟨_, rfl⟩),
      hA _ (tryEmph_nl _ _ _ ⟨_, rfl⟩), hA _ (tryEmph_nl _ _ _ ⟨_, rfl⟩),
      hA _ (tryEmph_nl _ _ _ ⟨_, rfl⟩),
      hL _ tryBullet_nl, hL _ tryNum_nl, hA _ tryWrap_nl, hL _ tryPara_nl]

end NewlineIdentity

/-- C6: `renderMarkdown`, `stripLinksFromMarkdown`,
`stripLinksExceptRecommendedResources` and `buildCollapsibleRoadmap`
are total Lean functions over every string (totality is inherent to the
embedding: every definition is a terminating function), and each one
maps the empty string to the empty string. -/
theorem c6_total_and_empty :
    renderMarkdown "" = "" ∧ stripLinksFromMarkdown "" = "" ∧
    stripLinksExceptRecommendedResources "" = "" ∧
    buildCollapsibleRoadmap "" = "" :=
  ⟨rfl, rfl, rfl, rfl⟩

/-- C7: evaluating `renderMarkdown` on two consecutive bullet lines.
The wrapping regex `(<li>.*<\/li>)` cannot cross a newline (`.`
excludes line terminators), so each list-item line receives its own
`<ul>…</ul>` wrapper, contradicting the source comment "Wrap
consecutive `<li>` in `<ul> / <ol>`" and the claimed single shared
container per maximal run. -/
theorem c7_each_li_wrapped_separately :
    renderMarkdown "- a\n- b" = "<ul><li>a</li></ul>\n<ul><li>b</li></ul>" := by
  decide

/-- C8 counterexample: a line consisting only of white space does
produce a paragraph.  On the single-space document, the paragraph
regex `^\s*(?!…)(.+)$` backtracks its `\s*` to let `(.+)` capture the
space, emitting `<p> </p>`. -/
theorem c8_counterexample : renderMarkdown " " = "<p> </p>" := by decide

/-- C8 (amended): a line with no characters produces no paragraph —
on documents all of whose characters are newlines (every line empty),
`renderMarkdown` is the identity and emits no `<p>` at all.  (A
non-empty whitespace-only line, by contrast, can produce a paragraph,
see the counterexample.) -/
theorem c8_empty_lines_produce_nothing (s : String)
    (h : ∀ c ∈ s.data, c = '\n') : renderMarkdown s = s := by
  by_cases hs : s = ""
  · subst hs; rfl
  · show (if s = "" then "" else ⟨rmPasses s.data⟩) = s
    rw [if_neg hs, rmPasses_all_nl s.data h]

/-- Witness for the amended C8 at the two-newline document. -/
theorem c8_empty_lines_produce_nothing_witness :
    renderMarkdown "\n\n" = "\n\n" :=
  c8_empty_lines_produce_nothing "\n\n" (by decide)

theorem collectLoop_no_meta :
    ∀ (ls intro : List (List Char)) (secs : List Sec),
      (∀ l ∈ ls, parseSectionMeta l = none) →
      collectLoop ls intro secs none = (intro ++ ls, secs) := by
  intro ls
  induction ls with
  | nil => intro intro secs _; simp [collectLoop]
  | cons l rest ih =>
    intro intro secs h
    simp only [collectLoop, h l (List.mem_cons_self l rest)]
    rw [ih (intro ++ [l]) secs (fun x hx => h x (List.mem_cons_of_mem l hx))]
    simp

/-- C3: on a document none of whose lines is recognized as a `Phase N:`
or `YT Tutorials` heading, `buildCollapsibleRoadmap` takes the fallback
path and coincides with the plain inline renderer. -/
theorem c3_fallback_is_inline_render (md : String)
    (h : ∀ l ∈ splitLinesL md.data, parseSectionMeta l = none) :
    buildCollapsibleRoadmap md = renderMarkdown md := by
  by_cases hmd : md = ""
  · subst hmd; rfl
  · have hs : sectionsOf md = [] := by
      unfold sectionsOf
      rw [collectLoop_no_meta _ [] [] h]
    unfold buildCollapsibleRoadmap
    rw [if_neg hmd, hs]
    simp

/-- Witness for C3 at a two-line unstructured document. -/
theorem c3_fallback_is_inline_render_witness :
    buildCollapsibleRoadmap "hello\nworld" = renderMarkdown "hello\nworld" :=
  c3_fallback_is_inline_render "hello\nworld" (by decide)

theorem parseSectionMeta_stype (line : List Char) (m : SectionMeta)
    (h : parseSectionMeta line = some m) :
    m.stype = "phase" ∨ m.stype = "yt" := by
  simp only [parseSectionMeta] at h
  split at h
  · cases h; left; rfl
  · split at h
    · cases h; right; rfl
    · exact absurd h (by simp)

theorem collectLoop_stype :
    ∀ (ls intro : List (List Char)) (secs : List Sec) (cur : Option Sec),
      (∀ s ∈ secs, s.stype = "phase" ∨ s.stype = "yt") →
      (∀ s ∈ cur.toList, s.stype = "phase" ∨ s.stype = "yt") →
      ∀ s ∈ (collectLoop ls intro secs cur).2,
        s.stype = "phase" ∨ s.stype = "yt" := by
  intro ls
  induction ls with
  | nil =>
    intro intro secs cur h1 h2 s hs
    simp only [collectLoop] at hs
    rcases List.mem_append.mp hs with h | h
    · exact h1 s h
    · exact h2 s h
  | cons l rest ih =>
    intro intro secs cur h1 h2 s hs
    simp only [collectLoop] at hs
    rcases hp : parseSectionMeta l with _ | m
    · rw [hp] at hs
      cases cur with
      | none => exact ih _ _ _ h1 (by simp) s hs
      | some c =>
        refine ih _ _ _ h1 ?_ s hs
        intro x hx
        simp only [Option.toList_some, List.mem_singleton] at hx
        subst hx
        exact h2 c (by simp)
    · rw [hp] at hs
      refine ih _ _ _ ?_ ?_ s hs
      · intro x hx
        rcases List.mem_append.mp hx with h | h
        · exact h1 x h
        · cases cur with
          | none => simp at h
          | some c =>
            simp only [Option.toList_some, List.mem_singleton] at h
            subst h
            exact h2 x (by simp)
      · intro x hx
        simp only [Option.toList_some, List.mem_singleton] at hx
        subst hx
        exact parseSectionMeta_stype l m hp

theorem filter_not_phase_yt_nil (l : List Sec)
    (h : ∀ s ∈ l, s.stype = "phase" ∨ s.stype = "yt") :
    l.filter (fun s => !(s.stype == "phase") && !(s.stype == "yt")) = [] := by
  induction l with
  | nil => rfl
  | cons s rest ih =>
    rw [List.filter_cons]
    rcases h s (List.mem_cons_self s rest) with hs | hs <;>
      rw [hs] <;>
      simpa using ih (fun x hx => h x (List.mem_cons_of_mem s hx))

/-- C10: `parseSectionMeta` only ever classifies lines as phase or YT
sections, so the `otherSections` list of `buildCollapsibleRoadmap` is
empty for every input, its card HTML is empty, and the
"first Other section's first card" branch of the default-expansion
rule is unreachable. -/
theorem c10_no_other_sections (md : String) :
    otherSectionsOf md = [] ∧ otherCardsHtmlOf md = "" := by
  have h1 : otherSectionsOf md = [] := by
    unfold otherSectionsOf
    exact filter_not_phase_yt_nil _
      (collectLoop_stype _ [] [] none (by simp) (by simp))
  refine ⟨h1, ?_⟩
  simp [otherCardsHtmlOf, h1, String.join]

theorem mem_insertByNum {x s : Sec} :
    ∀ {l : List Sec}, x ∈ insertByNum s l ↔ x = s ∨ x ∈ l := by
  intro l
  induction l with
  | nil => simp [insertByNum]
  | cons t ts ih =>
    simp only [insertByNum]
    split
    · simp [or_comm, or_assoc, or_left_comm]
    · simp only [List.mem_cons, ih]
      tauto

theorem pairwise_insertByNum (s : Sec) (l : List Sec)
    (h : l.Pairwise (fun a b => a.phaseNumber ≤ b.phaseNumber)) :
    (insertByNum s l).Pairwise (fun a b => a.phaseNumber ≤ b.phaseNumber) := by
  induction l with
  | nil => simp [insertByNum]
  | cons t ts ih =>
    rw [List.pairwise_cons] at h
    simp only [insertByNum]
    split
    · rename_i hle
      rw [List.pairwise_cons]
      refine ⟨?_, List.pairwise_cons.mpr h⟩
      intro b hb
      rcases List.mem_cons.mp hb with rfl | hb
      · exact hle
      · exact le_trans hle (h.1 b hb)
    · rename_i hgt
      rw [List.pairwise_cons]
      refine ⟨?_, ih h.2⟩
      intro b hb
      rcases mem_insertByNum.mp hb with rfl | hb
      · omega
      · exact h.1 b hb

theorem pairwise_sortByNum (l : List Sec) :
    (sortByNum l).Pairwise (fun a b => a.phaseNumber ≤ b.phaseNumber) := by
  unfold sortByNum
  induction l with
  | nil => simp
  | cons s rest ih => exact pairwise_insertByNum s _ ih

/-- C2: for every document with at least one recognized section, the
displayed phase sections are in ascending order of their parsed phase
numbers irrespective of document order, and the built output is the
concatenation intro ++ phase blocks ++ other cards ++ YT cards, so
every YT card is rendered after all phase blocks. -/
theorem c2_phases_sorted_yt_last (md : String) (h : sectionsOf md ≠ []) :
    (phaseSectionsOf md).Pairwise (fun a b => a.phaseNumber ≤ b.phaseNumber) ∧
    buildCollapsibleRoadmap md =
      introHtmlOf md ++ phaseBlocksHtmlOf md ++ otherCardsHtmlOf md ++
        ytCardsHtmlOf md := by
  have hmd : md ≠ "" := by
    intro he
    apply h
    rw [he]
    decide
  refine ⟨pairwise_sortByNum _, ?_⟩
  unfold buildCollapsibleRoadmap
  rw [if_neg hmd, if_neg (by simpa [List.isEmpty_iff] using h)]

/-- Witness for C2: phases supplied in document order 3, 1, 2 are
displayed in order 1, 2, 3, with the YT card after all phase blocks. -/
theorem c2_phases_sorted_yt_last_witness :
    sectionsOf "Phase 3: C\nPhase 1: A\nPhase 2: B\nYT Tutorials" ≠ [] ∧
    ((phaseSectionsOf "Phase 3: C\nPhase 1: A\nPhase 2: B\nYT Tutorials").map
      (fun s => s.phaseNumber) = [1, 2, 3]) ∧
    ((phaseSectionsOf "Phase 3: C\nPhase 1: A\nPhase 2: B\nYT Tutorials").Pairwise
      (fun a b => a.phaseNumber ≤ b.phaseNumber) ∧
     buildCollapsibleRoadmap "Phase 3: C\nPhase 1: A\nPhase 2: B\nYT Tutorials" =
       introHtmlOf "Phase 3: C\nPhase 1: A\nPhase 2: B\nYT Tutorials" ++
       phaseBlocksHtmlOf "Phase 3: C\nPhase 1: A\nPhase 2: B\nYT Tutorials" ++
       otherCardsHtmlOf "Phase 3: C\nPhase 1: A\nPhase 2: B\nYT Tutorials" ++
       ytCardsHtmlOf "Phase 3: C\nPhase 1: A\nPhase 2: B\nYT Tutorials") :=
  ⟨by decide, by decide,
   c2_phases_sorted_yt_last "Phase 3: C\nPhase 1: A\nPhase 2: B\nYT Tutorials"
     (by decide)⟩

theorem otherSectionsOf_eq_nil (md : String) : otherSectionsOf md = [] := by
  unfold otherSectionsOf
  exact filter_not_phase_yt_nil _
    (collectLoop_stype _ [] [] none (by simp) (by simp))

theorem insertByNum_ne_nil (s : Sec) (l : List Sec) : insertByNum s l ≠ [] := by
  cases l with
  | nil => simp [insertByNum]
  | cons t ts =>
    simp only [insertByNum]
    split <;> simp

theorem sortByNum_eq_nil {l : List Sec} (h : sortByNum l = []) : l = [] := by
  cases l with
  | nil => rfl
  | cons s rest => exact absurd h (insertByNum_ne_nil s (sortByNum rest))

theorem fallbackSubsOf_ne_nil (s : Sec) : fallbackSubsOf s ≠ [] := by
  simp only [fallbackSubsOf]
  split
  · simp
  · rename_i hne
    simpa [List.isEmpty_iff] using hne

theorem enumFrom_fst_pos {α : Type} :
    ∀ (l : List α) (n : Nat) (p : Nat × α), p ∈ List.enumFrom n l → n ≤ p.1 := by
  intro l
  induction l with
  | nil => intro n p hp; simp at hp
  | cons x xs ih =>
    intro n p hp
    rw [List.enumFrom_cons, List.mem_cons] at hp
    rcases hp with rfl | hp
    · exact le_refl n
    · exact le_trans (Nat.le_succ n) (ih (n + 1) p hp)

theorem count_true_all_false {l : List Bool} (h : ∀ b ∈ l, b = false) :
    l.count true = 0 := by
  rw [List.count_eq_zero]
  intro hmem
  exact absurd (h true hmem) (by simp)

/-- C5: whenever at least one section is recognized, exactly one card
of the built document carries the `open` attribute, and it is the very
first card in output order (the first subsection or fallback card of
the lowest-numbered phase; with no phases — `Other` sections never
exist — the first YT Tutorials card). -/
theorem c5_exactly_one_open (md : String) (h : sectionsOf md ≠ []) :
    (openFlagsOf md).count true = 1 ∧ (openFlagsOf md).head? = some true := by
  have hother : otherSectionsOf md = [] := otherSectionsOf_eq_nil md
  have hstype : ∀ s ∈ sectionsOf md, s.stype = "phase" ∨ s.stype = "yt" :=
    collectLoop_stype _ [] [] none (by simp) (by simp)
  cases hP : phaseSectionsOf md with
  | cons p ps =>
    obtain ⟨q0, qs, hq⟩ : ∃ q0 qs, fallbackSubsOf p = q0 :: qs := by
      rcases hfb : fallbackSubsOf p with _ | ⟨q0, qs⟩
      · exact absurd hfb (fallbackSubsOf_ne_nil p)
      · exact ⟨q0, qs, rfl⟩
    unfold openFlagsOf
    simp only [hP, hother, hq, List.enum_cons, List.flatMap_cons, List.map_cons,
      List.enum_nil, List.map_nil, List.flatMap_nil, List.nil_append,
      List.append_nil, List.isEmpty_cons, List.isEmpty_nil, Bool.false_and,
      Bool.and_false, Nat.beq_refl, Bool.true_and, Bool.and_true,
      List.cons_append]
    have hA1 : ((List.enumFrom 1 qs).map
        (fun q => ((0 : Nat) == 0 && q.1 == 0))).count true = 0 := by
      refine count_true_all_false ?_
      intro b hb
      rcases List.mem_map.mp hb with ⟨q, hqmem, rfl⟩
      have hpos := enumFrom_fst_pos qs 1 q hqmem
      have h1 : (q.1 == 0) = false := by
        rw [beq_eq_false_iff_ne]; omega
      rw [h1, Bool.and_false]
    have hA2 : (((List.enumFrom 1 ps).flatMap
        (fun pr => (fallbackSubsOf pr.2).enum.map
          (fun q => pr.1 == 0 && q.1 == 0)))).count true = 0 := by
      refine count_true_all_false ?_
      intro b hb
      rcases List.mem_flatMap.mp hb with ⟨pr, hpr, hb2⟩
      rcases List.mem_map.mp hb2 with ⟨q, _, rfl⟩
      have := enumFrom_fst_pos ps 1 pr hpr
      have h1 : (pr.1 == 0) = false := by
        rw [beq_eq_false_iff_ne]; omega
      rw [h1, Bool.false_and]
    have hC : (((ytSectionsOf md).enum.map (fun _ => false)) : List Bool).count
        true = 0 := by
      refine count_true_all_false ?_
      intro b hb
      rcases List.mem_map.mp hb with ⟨q, _, rfl⟩
      rfl
    constructor
    · rw [List.count_cons, List.count_append, List.count_append, hA1, hA2, hC]
      simp
    · simp
  | nil =>
    have hfilter : (sectionsOf md).filter (fun s => s.stype == "phase") = [] := by
      by_contra hne
      rcases List.exists_mem_of_ne_nil _ hne with ⟨x, hx⟩
      have hnn : sortByNum ((sectionsOf md).filter
          (fun s => s.stype == "phase")) ≠ [] := by
        intro hnil
        rw [sortByNum_eq_nil hnil] at hx
        simp at hx
      exact hnn hP
    obtain ⟨y0, ys, hy⟩ : ∃ y0 ys, ytSectionsOf md = y0 :: ys := by
      rcases List.exists_mem_of_ne_nil _ h with ⟨s0, hs0⟩
      rcases hstype s0 hs0 with hph | hyt
      · exfalso
        have hm : s0 ∈ (sectionsOf md).filter (fun s => s.stype == "phase") :=
          List.mem_filter.mpr ⟨hs0, by simp [hph]⟩
        rw [hfilter] at hm
        simp at hm
      · have hmem : s0 ∈ ytSectionsOf md :=
          List.mem_filter.mpr ⟨hs0, by simp [hyt]⟩
        rcases hyts : ytSectionsOf md with _ | ⟨y0, ys⟩
        · rw [hyts] at hmem; simp at hmem
        · exact ⟨y0, ys, rfl⟩
    unfold openFlagsOf
    simp only [hP, hother, hy, List.enum_cons, List.flatMap_cons, List.map_cons,
      List.enum_nil, List.map_nil, List.flatMap_nil, List.nil_append,
      List.isEmpty_nil, Bool.true_and, Nat.beq_refl, List.cons_append]
    have hCrest : ∀ (f : ℕ × Sec → Bool), (∀ q, 1 ≤ q.1 → f q = false) →
        ((List.enumFrom 1 ys).map f).count true = 0 := by
      intro f hf
      refine count_true_all_false ?_
      intro b hb
      rcases List.mem_map.mp hb with ⟨q, hqmem, rfl⟩
      exact hf q (enumFrom_fst_pos ys 1 q hqmem)
    constructor
    · rw [List.count_cons, hCrest _ (fun q hq => by
        have h1 : (q.1 == 0) = false := by rw [beq_eq_false_iff_ne]; omega
        simp [h1])]
      simp
    · simp

/-- Witness for C5 at a document with one phase and a YT section. -/
theorem c5_exactly_one_open_witness :
    sectionsOf "Phase 1: A\nYT Tutorials" ≠ [] ∧
    ((openFlagsOf "Phase 1: A\nYT Tutorials").count true = 1 ∧
     (openFlagsOf "Phase 1: A\nYT Tutorials").head? = some true) :=
  ⟨by decide, c5_exactly_one_open "Phase 1: A\nYT Tutorials" (by decide)⟩

theorem subPatterns_countP_le_one (n : List Char) :
    subPatterns.countP (fun pr => pr.1 n) ≤ 1 := by
  by_cases hmem : n ∈ allLits
  · fin_cases hmem <;> decide
  · have hne : ∀ l ∈ allLits, n ≠ l := fun l hl he => hmem (he ▸ hl)
    have h02 : ¬(n = "objective".data) := hne _ (by simp [allLits])
    have h03 : ¬(n = "objectives".data) := hne _ (by simp [allLits])
    have h04 : ¬(n = "concrete tasks/activities".data) := hne _ (by simp [allLits])
    have h05 : ¬(n = "concrete tasks".data) := hne _ (by simp [allLits])
    have h06 : ¬(n = "tasks/activities".data) := hne _ (by simp [allLits])
    have h07 : ¬(n = "suggested project idea".data) := hne _ (by simp [allLits])
    have h08 : ¬(n = "suggested project ideas".data) := hne _ (by simp [allLits])
    have h09 : ¬(n = "recommended resource".data) := hne _ (by simp [allLits])
    have h10 : ¬(n = "recommended resources".data) := hne _ (by simp [allLits])
    have h11 : ¬(n = "resource".data) := hne _ (by simp [allLits])
    have h12 : ¬(n = "resources".data) := hne _ (by simp [allLits])
    have h13 : ¬(n = "tips for staying consistent".data) := hne _ (by simp [allLits])
    have h14 : ¬(n = "how to measure progress".data) := hne _ (by simp [allLits])
    have h15 : ¬(n = "recommended next step".data) := hne _ (by simp [allLits])
    simp only [subPatterns, List.countP_cons, List.countP_nil, h02, h03, h04,
      h05, h06, h07, h08, h09, h10, h11, h12, h13, h14, h15, decide_False,
      Bool.or_self, Bool.or_false, if_false]
    simp only [if_neg (Bool.false_ne_true), Nat.zero_add, Nat.add_zero]
    split <;> omega

/-- C9: the synonym headings named by the specification are classified
to one and the same canonical title, and for every input line at most
one pattern of the fixed ordered list matches its normalized form
(the patterns are mutually exclusive). -/
theorem c9_synonyms_and_exclusive :
    getSubsectionTitle "Resources" = some "Recommended Resources" ∧
    getSubsectionTitle "Recommended Resources" = some "Recommended Resources" ∧
    getSubsectionTitle "Concrete Tasks" = some "Concrete Tasks/Activities" ∧
    getSubsectionTitle "Tasks/Activities" = some "Concrete Tasks/Activities" ∧
    getSubsectionTitle "Concrete Tasks/Activities" =
      some "Concrete Tasks/Activities" ∧
    ∀ line : String,
      subPatterns.countP (fun pr => pr.1 (subNormalize line.data)) ≤ 1 :=
  ⟨by decide, by decide, by decide, by decide, by decide,
   fun line => subPatterns_countP_le_one (subNormalize line.data)⟩

theorem splitLinesL_ne_nil (l : List Char) : splitLinesL l ≠ [] := by
  rw [splitLinesL.eq_def]
  split
  · simp
  · simp
  · simp
  · split <;> simp

theorem renderLoop_abort (roadmap : String) (jobId : Nat) (envAt : Nat → Nat) :
    ∀ (k : Nat) (rest : List String) (i : Nat) (streamed : String)
      (acc : List String),
      k ≤ rest.length →
      (∀ j, j < k → envAt (i + j) = jobId) →
      envAt (i + k) ≠ jobId →
      renderLoop roadmap jobId envAt rest i streamed acc =
        (false, acc ++ renderWrites rest i streamed k) := by
  intro k
  induction k with
  | zero =>
    intro rest i streamed acc _ _ hat
    rw [Nat.add_zero] at hat
    cases rest with
    | nil => simp [renderLoop, renderWrites, hat]
    | cons l rest2 => simp [renderLoop, renderWrites, hat]
  | succ k ih =>
    intro rest i streamed acc hk hbef hat
    cases rest with
    | nil => simp at hk
    | cons l rest2 =>
      have h0 : envAt i = jobId := by
        have := hbef 0 (Nat.succ_pos k)
        simpa using this
      simp only [renderLoop, h0, if_pos, renderWrites]
      rw [ih rest2 (i + 1)
        (if i = 0 then l else streamed ++ "\n" ++ l)
        (acc ++ [buildCollapsibleRoadmap (if i = 0 then l else streamed ++ "\n" ++ l)])
        (by simpa using hk)
        (fun j hj => by
          have h2 := hbef (j + 1) (Nat.succ_lt_succ hj)
          have he : i + 1 + j = i + (j + 1) := by omega
          rw [he]
          exact h2)
        (by
          have he : i + 1 + k = i + (k + 1) := by omega
          rw [he]
          exact hat)]
      simp

/-- C4: every new submission bumps `renderJobId` strictly, and a
`renderRoadmapLineByLine` run whose job identifier first disagrees with
the observed `renderJobId` at checkpoint `k` returns `false` and
performs exactly the initial clear plus the first `k` prefix renders —
no write at or after the failed checkpoint, so the display stays
whatever the superseding run makes it. -/
theorem c4_superseded_run_aborts :
    (∀ n : Nat, n < setLoadingBumpsJob n) ∧
    ∀ (roadmap : String) (jobId : Nat) (envAt : Nat → Nat) (k : Nat),
      k ≤ (splitLines roadmap).length →
      (∀ j, j < k → envAt j = jobId) →
      envAt k ≠ jobId →
      renderRoadmapLineByLine roadmap jobId envAt =
        (false, "" :: renderWrites (splitLines roadmap) 0 "" k) := by
  constructor
  · intro n
    exact Nat.lt_succ_self n
  · intro roadmap jobId envAt k hk hbef hat
    have hne : splitLines roadmap ≠ [] := by
      intro he
      exact splitLinesL_ne_nil roadmap.data (by simpa [splitLines] using he)
    unfold renderRoadmapLineByLine
    rw [if_neg (by simpa [List.isEmpty_iff] using hne)]
    rw [renderLoop_abort roadmap jobId envAt k (splitLines roadmap) 0 "" [""]
      hk (fun j hj => by simpa using hbef j hj) (by simpa using hat)]
    simp

/-- Witness for C4: a ten-line roadmap superseded at checkpoint 3
(after three of ten lines) aborts with exactly the clear plus three
prefix renders. -/
theorem c4_superseded_run_aborts_witness :
    (0 < setLoadingBumpsJob 0) ∧
    (splitLines "l0\nl1\nl2\nl3\nl4\nl5\nl6\nl7\nl8\nl9").length = 10 ∧
    renderRoadmapLineByLine "l0\nl1\nl2\nl3\nl4\nl5\nl6\nl7\nl8\nl9" 0
        (fun i => if i < 3 then 0 else 1) =
      (false, "" :: renderWrites
        (splitLines "l0\nl1\nl2\nl3\nl4\nl5\nl6\nl7\nl8\nl9") 0 "" 3) :=
  ⟨c4_superseded_run_aborts.1 0, by decide,
   c4_superseded_run_aborts.2 "l0\nl1\nl2\nl3\nl4\nl5\nl6\nl7\nl8\nl9" 0
     (fun i => if i < 3 then 0 else 1) 3 (by decide)
     (fun j hj => by simp [hj]) (by decide)⟩

section BareUrlFreedom

theorem dropWhile_exists_drop (p : Char → Bool) :
    ∀ y : List Char, ∃ n, y.dropWhile p = y.drop n := by
  intro y
  induction y with
  | nil => exact ⟨0, rfl⟩
  | cons c cs ih =>
    by_cases hc : p c = true
    · rcases ih with ⟨n, hn⟩
      exact ⟨n + 1, by simp [List.dropWhile_cons, hc, hn]⟩
    · exact ⟨0, by simp [List.dropWhile_cons, hc]⟩

theorem dropWhile_head_not (p : Char → Bool) :
    ∀ (y : List Char) (c : Char) (cs : List Char),
      y.dropWhile p = c :: cs → p c = false := by
  intro y
  induction y with
  | nil => intro c cs h; simp at h
  | cons d ds ih =>
    intro c cs h
    rw [List.dropWhile_cons] at h
    split at h
    · exact ih c cs h
    · rename_i hd
      cases h
      simpa using hd

theorem drop_length_takeWhile (p : Char → Bool) :
    ∀ l : List Char, l.drop (l.takeWhile p).length = l.dropWhile p := by
  intro l
  induction l with
  | nil => rfl
  | cons c cs ih =>
    by_cases hc : p c = true
    · simp [List.takeWhile_cons, List.dropWhile_cons, hc, ih]
    · simp [List.takeWhile_cons, List.dropWhile_cons, hc]

theorem hasBareUrl_cons (c : Char) (cs : List Char) :
    hasBareUrl (c :: cs) = ((tryBare (c :: cs)).isSome || hasBareUrl cs) := rfl

theorem hasBareUrl_drop_false :
    ∀ (n : Nat) (l : List Char), hasBareUrl l = false →
      hasBareUrl (l.drop n) = false := by
  intro n
  induction n with
  | zero => intro l h; simpa using h
  | succ m ih =>
    intro l h
    cases l with
    | nil => simpa using h
    | cons c cs =>
      rw [hasBareUrl_cons, Bool.or_eq_false_iff] at h
      exact ih cs h.2

theorem leadsWith_append_right {x p : List Char} (e : List Char)
    (h : leadsWith x p = true) : leadsWith (x ++ e) p = true := by
  rcases leadsWith_iff_append.mp h with ⟨t, rfl⟩
  exact leadsWith_iff_append.mpr ⟨t ++ e, by simp⟩

end BareUrlFreedom


section StemLemmas

theorem inUrlClass_of_ciEq {c a : Char} (h : ciEq c a = true)
    (h1 : inUrlClass a = true) (h2 : inUrlClass a.toUpper = true) :
    inUrlClass c = true := by
  simp only [ciEq, Bool.or_eq_true, decide_eq_true_eq] at h
  rcases h with rfl | rfl
  · exact h1
  · exact h2

theorem stemLit_cases {s : List Char} (h : stemLit s = true) :
    (∃ c1 c2 c3 c4, s = [c1, c2, c3, c4, ':', '/', '/'] ∧
      ciEq c1 'h' = true ∧ ciEq c2 't' = true ∧ ciEq c3 't' = true ∧
      ciEq c4 'p' = true) ∨
    (∃ c1 c2 c3 c4 c5, s = [c1, c2, c3, c4, c5, ':', '/', '/'] ∧
      ciEq c1 'h' = true ∧ ciEq c2 't' = true ∧ ciEq c3 't' = true ∧
      ciEq c4 'p' = true ∧ ciEq c5 's' = true) := by
  rw [stemLit.eq_def] at h
  split at h
  · rename_i c1 c2 c3 c4 cc s1 s2
    simp only [Bool.and_eq_true, decide_eq_true_eq] at h
    obtain ⟨⟨⟨⟨⟨⟨h1, h2⟩, h3⟩, h4⟩, hcc⟩, hs1⟩, hs2⟩ := h
    subst hcc; subst hs1; subst hs2
    exact Or.inl ⟨c1, c2, c3, c4, rfl, h1, h2, h3, h4⟩
  · rename_i c1 c2 c3 c4 c5 cc s1 s2
    simp only [Bool.and_eq_true, decide_eq_true_eq] at h
    obtain ⟨⟨⟨⟨⟨⟨⟨h1, h2⟩, h3⟩, h4⟩, h5⟩, hcc⟩, hs1⟩, hs2⟩ := h
    subst hcc; subst hs1; subst hs2
    exact Or.inr ⟨c1, c2, c3, c4, c5, rfl, h1, h2, h3, h4, h5⟩
  · exact absurd h (by simp)

theorem stemLit_all_class {s : List Char} (h : stemLit s = true) :
    ∀ c ∈ s, inUrlClass c = true := by
  rcases stemLit_cases h with
    ⟨c1, c2, c3, c4, rfl, h1, h2, h3, h4⟩ |
    ⟨c1, c2, c3, c4, c5, rfl, h1, h2, h3, h4, h5⟩ <;>
  · intro c hc
    simp only [List.mem_cons, List.not_mem_nil, or_false] at hc
    rcases hc with rfl | rfl | rfl | rfl | rfl | rfl | rfl | rfl
    all_goals first
      | exact inUrlClass_of_ciEq (by assumption) (by decide) (by decide)
      | decide

theorem stemLit_head {s : List Char} (h : stemLit s = true) :
    ∃ c1 rest, s = c1 :: rest := by
  rcases stemLit_cases h with ⟨c1, _, _, _, rfl, _⟩ | ⟨c1, _, _, _, _, rfl, _⟩ <;>
    exact ⟨c1, _, rfl⟩

theorem stem_fwd {x t : List Char} (h : stripHttpStem x = some t) :
    ∃ s, x = s ++ t ∧ stemLit s = true := by
  unfold stripHttpStem at h
  split at h
  · rename_i h7
    cases h
    exact ⟨x.take 7, (List.take_append_drop 7 x).symm, h7⟩
  · split at h
    · rename_i h8
      cases h
      exact ⟨x.take 8, (List.take_append_drop 8 x).symm, h8⟩
    · exact absurd h (by simp)

theorem stem_bwd {s : List Char} (h : stemLit s = true) (t : List Char) :
    stripHttpStem (s ++ t) = some t := by
  rcases stemLit_cases h with
    ⟨c1, c2, c3, c4, rfl, h1, h2, h3, h4⟩ |
    ⟨c1, c2, c3, c4, c5, rfl, h1, h2, h3, h4, h5⟩
  · have ht : ([c1, c2, c3, c4, ':', '/', '/'] ++ t).take 7 =
        [c1, c2, c3, c4, ':', '/', '/'] := by
      have := List.take_left [c1, c2, c3, c4, ':', '/', '/'] t
      simpa using this
    have hd : ([c1, c2, c3, c4, ':', '/', '/'] ++ t).drop 7 = t := by
      have := List.drop_left [c1, c2, c3, c4, ':', '/', '/'] t
      simpa using this
    unfold stripHttpStem
    rw [ht, hd, if_pos (by simp [stemLit, h1, h2, h3, h4])]
  · have h7 : ([c1, c2, c3, c4, c5, ':', '/', '/'] ++ t).take 7 =
        [c1, c2, c3, c4, c5, ':', '/'] := by
      have := List.take_left [c1, c2, c3, c4, c5, ':', '/'] ('/' :: t)
      simpa using this
    have h8 : ([c1, c2, c3, c4, c5, ':', '/', '/'] ++ t).take 8 =
        [c1, c2, c3, c4, c5, ':', '/', '/'] := by
      have := List.take_left [c1, c2, c3, c4, c5, ':', '/', '/'] t
      simpa using this
    have hd : ([c1, c2, c3, c4, c5, ':', '/', '/'] ++ t).drop 8 = t := by
      have := List.drop_left [c1, c2, c3, c4, c5, ':', '/', '/'] t
      simpa using this
    unfold stripHttpStem
    rw [h7, h8, hd]
    rw [if_neg (by simp [stemLit]), if_pos (by simp [stemLit, h1, h2, h3, h4, h5])]

end StemLemmas

section SeedLemmas

theorem seedOk_shape {p : List Char} (h : seedOk p = true) :
    ∃ s c, p = s ++ [c] ∧ stemLit s = true ∧ inUrlClass c = true := by
  unfold seedOk at h
  rcases hst : stripHttpStem p with _ | t
  · rw [hst] at h; exact absurd h (by simp)
  · rw [hst] at h
    match t, h with
    | [c], h =>
      rcases stem_fwd hst with ⟨s, hp, hs⟩
      exact ⟨s, c, hp, hs, h⟩

theorem seedOk_mk {s : List Char} {c : Char} (hs : stemLit s = true)
    (hc : inUrlClass c = true) : seedOk (s ++ [c]) = true := by
  unfold seedOk
  rw [stem_bwd hs [c]]
  exact hc

theorem seedOk_all_class {p : List Char} (h : seedOk p = true) :
    p ≠ [] ∧ ∀ c ∈ p, inUrlClass c = true := by
  rcases seedOk_shape h with ⟨s, c, rfl, hs, hc⟩
  refine ⟨by simp, ?_⟩
  intro d hd
  rcases List.mem_append.mp hd with hd | hd
  · exact stemLit_all_class hs d hd
  · rw [List.mem_singleton.mp hd]
    exact hc

theorem tryBare_isSome_shape {x : List Char} (h : (tryBare x).isSome = true) :
    ∃ p, seedOk p = true ∧ leadsWith x p = true := by
  rcases hst : stripHttpStem x with _ | t
  · rw [tryBare.eq_def, hst] at h
    exact absurd h (by simp)
  · rw [tryBare.eq_def, hst] at h
    simp only [Option.isSome] at h
    split at h
    · rename_i heq
      split at heq
      · exact absurd heq (by simp)
      · rename_i hne
        cases t with
        | nil => exact absurd (by simp) hne
        | cons c t2 =>
          have hc : inUrlClass c = true := by
            by_cases hcc : inUrlClass c = true
            · exact hcc
            · exfalso
              apply hne
              rw [List.takeWhile_cons, if_neg (by simpa using hcc)]
              rfl
          rcases stem_fwd hst with ⟨s, hx, hs⟩
          refine ⟨s ++ [c], seedOk_mk hs hc, leadsWith_iff_append.mpr ⟨t2, ?_⟩⟩
          rw [hx]
          simp
    · exact absurd h (by simp)

theorem seed_tryBare {p x : List Char} (hp : seedOk p = true)
    (hl : leadsWith x p = true) : (tryBare x).isSome = true := by
  rcases seedOk_shape hp with ⟨s, c, rfl, hs, hc⟩
  rcases leadsWith_iff_append.mp hl with ⟨t, rfl⟩
  unfold tryBare
  rw [show (s ++ [c]) ++ t = s ++ (c :: t) by simp, stem_bwd hs]
  simp [List.takeWhile_cons, hc]

theorem tryBare_rest {x re r : List Char} (h : tryBare x = some (re, r)) :
    re = [] ∧ (∃ n, r = x.drop n) ∧
      (∀ d ds, r = d :: ds → inUrlClass d = false) ∧ r.length < x.length := by
  rcases hst : stripHttpStem x with _ | t
  · rw [tryBare.eq_def, hst] at h
    exact absurd h (by simp)
  · rw [tryBare.eq_def, hst] at h
    simp only [] at h
    split at h
    · exact absurd h (by simp)
    · rename_i hne
      have hre : re = [] := by
        cases h
        rfl
      have hr : r = t.dropWhile inUrlClass := by
        have hd := drop_length_takeWhile inUrlClass t
        cases h
        rw [hd]
      rcases stem_fwd hst with ⟨s, hx, hs⟩
      have hul : 1 ≤ (t.takeWhile inUrlClass).length := by
        rcases he : t.takeWhile inUrlClass with _ | ⟨d, ds⟩
        · exact absurd (by simp [he]) hne
        · simp
      refine ⟨hre, ⟨s.length + (t.takeWhile inUrlClass).length, ?_⟩, ?_, ?_⟩
      · rw [hr, ← drop_length_takeWhile inUrlClass t]
        rw [show t = x.drop s.length from by rw [hx, List.drop_left]]
        rw [List.drop_drop, Nat.add_comm]
      · intro d ds hds
        exact dropWhile_head_not inUrlClass t d ds (hr ▸ hds)
      · have h1 : r.length = t.length - (t.takeWhile inUrlClass).length := by
          rw [hr, ← drop_length_takeWhile inUrlClass t, List.length_drop]
        have h2 : (t.takeWhile inUrlClass).length ≤ t.length :=
          (List.takeWhile_sublist inUrlClass).length_le
        have h3 : t.length ≤ x.length := by
          rw [hx]
          simp
        omega

theorem tryBare_none_nonclass {c : Char} {xs : List Char}
    (hc : inUrlClass c = false) : tryBare (c :: xs) = none := by
  rcases ht : tryBare (c :: xs) with _ | r
  · rfl
  · exfalso
    have hsome : (tryBare (c :: xs)).isSome = true := by rw [ht]; rfl
    rcases tryBare_isSome_shape hsome with ⟨p, hp, hl⟩
    rcases seedOk_shape hp with ⟨s, d, rfl, hs, hd⟩
    rcases stemLit_head hs with ⟨c1, srest, rfl⟩
    have : c = c1 := by
      simp only [List.cons_append, leadsWith, Bool.and_eq_true,
        decide_eq_true_eq] at hl
      exact hl.1
    subst this
    have := stemLit_all_class hs c (by simp)
    rw [hc] at this
    exact absurd this (by simp)

end SeedLemmas

section ScanFreedom

theorem leadsWith_nil (l : List Char) : leadsWith l [] = true := by
  cases l <;> rfl

theorem hasBare_append_left_nonclass :
    ∀ (re X : List Char), (∀ d ∈ re, inUrlClass d = false) →
      hasBareUrl X = false → hasBareUrl (re ++ X) = false := by
  intro re
  induction re with
  | nil => intro X _ hX; simpa using hX
  | cons d ds ih =>
    intro X hre hX
    rw [List.cons_append, hasBareUrl_cons,
      tryBare_none_nonclass (hre d (List.mem_cons_self d ds))]
    simpa using ih X (fun e he => hre e (List.mem_cons_of_mem d he)) hX

theorem hasBareUrl_append_right_false :
    ∀ (m e : List Char), hasBareUrl (m ++ e) = false → hasBareUrl m = false := by
  intro m
  induction m with
  | nil => intro e _; rfl
  | cons c m2 ih =>
    intro e h
    rw [List.cons_append, hasBareUrl_cons, Bool.or_eq_false_iff] at h
    rw [hasBareUrl_cons, Bool.or_eq_false_iff]
    refine ⟨?_, ih e h.2⟩
    by_contra hne
    have hsome : (tryBare (c :: m2)).isSome = true := by
      cases hval : (tryBare (c :: m2)).isSome
      · exact absurd hval hne
      · rfl
    rcases tryBare_isSome_shape hsome with ⟨p, hp, hl⟩
    have hx : (tryBare (c :: (m2 ++ e))).isSome = true :=
      seed_tryBare hp (by
        have := leadsWith_append_right e hl
        simpa using this)
    rw [h.1] at hx
    exact absurd hx (by simp)

/-- Reflection of URL-class prefixes through a scanner pass: if every
replacement a step emits starts (when non-empty) outside the URL class,
and the rest after an empty replacement also starts outside it, then a
non-empty all-URL-class literal leading the output must already lead
the input. -/
theorem gscan_class_leads
    (step : List Char → Option (List Char × List Char))
    (hstep : ∀ x re r, step x = some (re, r) →
      (∀ d ∈ re, inUrlClass d = false) ∧
      (re = [] → ∀ d ds, r = d :: ds → inUrlClass d = false)) :
    ∀ (fuel : Nat) (l p : List Char), p ≠ [] →
      (∀ c ∈ p, inUrlClass c = true) →
      leadsWith (gscan step fuel l) p = true → leadsWith l p = true := by
  intro fuel
  induction fuel with
  | zero => intro l p _ _ h; exact h
  | succ n ih =>
    intro l p hne hclass h
    cases l with
    | nil => simpa [gscan] using h
    | cons c cs =>
      rw [gscan] at h
      rcases hstep2 : step (c :: cs) with _ | ⟨re, r⟩
      · rw [hstep2] at h
        cases p with
        | nil => exact absurd rfl hne
        | cons p0 ps =>
          simp only [leadsWith, Bool.and_eq_true, decide_eq_true_eq] at h ⊢
          refine ⟨h.1, ?_⟩
          by_cases hps : ps = []
          · subst hps; exact leadsWith_nil cs
          · exact ih cs ps hps
              (fun e he => hclass e (List.mem_cons_of_mem p0 he)) h.2
      · rw [hstep2] at h
        exfalso
        obtain ⟨hre, hrest⟩ := hstep (c :: cs) re r hstep2
        cases p with
        | nil => exact absurd rfl hne
        | cons p0 ps =>
          cases re with
          | cons d ds =>
            simp only [List.cons_append, leadsWith, Bool.and_eq_true,
              decide_eq_true_eq] at h
            have hd : inUrlClass d = false := hre d (by simp)
            have : inUrlClass d = true := h.1 ▸ hclass p0 (by simp)
            rw [hd] at this
            exact absurd this (by simp)
          | nil =>
            simp only [List.nil_append] at h
            have h2 : leadsWith r (p0 :: ps) = true :=
              ih r (p0 :: ps) (by simp) hclass h
            cases r with
            | nil => simpa [leadsWith] using h2
            | cons d ds =>
              simp only [leadsWith, Bool.and_eq_true, decide_eq_true_eq] at h2
              have hd : inUrlClass d = false := hrest rfl d ds rfl
              have : inUrlClass d = true := h2.1 ▸ hclass p0 (by simp)
              rw [hd] at this
              exact absurd this (by simp)

/-- A pass whose replacements lie outside the URL class, whose rests
are suffixes of the input, never introduces a bare-URL match. -/
theorem gscan_no_new_bare
    (step : List Char → Option (List Char × List Char))
    (hstep : ∀ x re r, step x = some (re, r) →
      (∀ d ∈ re, inUrlClass d = false) ∧ (∃ n, r = x.drop n) ∧
      (re = [] → ∀ d ds, r = d :: ds → inUrlClass d = false)) :
    ∀ (fuel : Nat) (l : List Char), hasBareUrl l = false →
      hasBareUrl (gscan step fuel l) = false := by
  intro fuel
  induction fuel with
  | zero => intro l h; exact h
  | succ n ih =>
    intro l h
    cases l with
    | nil => simp [gscan, hasBareUrl]
    | cons c cs =>
      rw [hasBareUrl_cons, Bool.or_eq_false_iff] at h
      rw [gscan]
      rcases hstep2 : step (c :: cs) with _ | ⟨re, r⟩
      · rw [hasBareUrl_cons, Bool.or_eq_false_iff]
        refine ⟨?_, ih cs h.2⟩
        by_contra hne
        have hsome : (tryBare (c :: gscan step n cs)).isSome = true := by
          cases hval : (tryBare (c :: gscan step n cs)).isSome
          · exact absurd hval hne
          · rfl
        rcases tryBare_isSome_shape hsome with ⟨p, hp, hl⟩
        obtain ⟨hpne, hpclass⟩ := seedOk_all_class hp
        have hl2 : leadsWith (gscan step (n + 1) (c :: cs)) p = true := by
          rw [gscan, hstep2]
          exact hl
        have := gscan_class_leads step
          (fun x re r hx => ⟨(hstep x re r hx).1, (hstep x re r hx).2.2⟩)
          (n + 1) (c :: cs) p hpne hpclass hl2
        have := seed_tryBare hp this
        rw [h.1] at this
        exact absurd this (by simp)
      · obtain ⟨hre, ⟨m, hm⟩, _⟩ := hstep (c :: cs) re r hstep2
        refine hasBare_append_left_nonclass re _ hre ?_
        refine ih r ?_
        rw [hm]
        exact hasBareUrl_drop_false m (c :: cs)
          (by rw [hasBareUrl_cons, Bool.or_eq_false_iff]; exact h)

/-- The bare-URL removal pass leaves no bare-URL match behind. -/
theorem gscan_tryBare_clears :
    ∀ (fuel : Nat) (l : List Char), l.length ≤ fuel →
      hasBareUrl (gscan tryBare fuel l) = false := by
  intro fuel
  induction fuel with
  | zero =>
    intro l hl
    rw [Nat.le_zero] at hl
    rw [List.length_eq_zero] at hl
    subst hl
    rfl
  | succ n ih =>
    intro l hl
    cases l with
    | nil => simp [gscan, hasBareUrl]
    | cons c cs =>
      rw [gscan]
      rcases hstep2 : tryBare (c :: cs) with _ | ⟨re, r⟩
      · rw [hasBareUrl_cons, Bool.or_eq_false_iff]
        refine ⟨?_, ih cs (by simpa using Nat.le_of_succ_le_succ hl)⟩
        by_contra hne
        have hsome : (tryBare (c :: gscan tryBare n cs)).isSome = true := by
          cases hval : (tryBare (c :: gscan tryBare n cs)).isSome
          · exact absurd hval hne
          · rfl
        rcases tryBare_isSome_shape hsome with ⟨p, hp, hl2⟩
        obtain ⟨hpne, hpclass⟩ := seedOk_all_class hp
        have hl3 : leadsWith (gscan tryBare (n + 1) (c :: cs)) p = true := by
          rw [gscan, hstep2]
          exact hl2
        have hstepOk : ∀ x re r, tryBare x = some (re, r) →
            (∀ d ∈ re, inUrlClass d = false) ∧
            (re = [] → ∀ d ds, r = d :: ds → inUrlClass d = false) := by
          intro x re r hx
          obtain ⟨hre, _, hhead, _⟩ := tryBare_rest hx
          subst hre
          exact ⟨by simp, fun _ => hhead⟩
        have hlead := gscan_class_leads tryBare hstepOk (n + 1) (c :: cs) p
          hpne hpclass hl3
        have := seed_tryBare hp hlead
        rw [hstep2] at this
        exact absurd this (by simp)
      · obtain ⟨hre, _, _, hlen⟩ := tryBare_rest hstep2
        subst hre
        simp only [List.nil_append]
        refine ih r ?_
        have : (c :: cs).length ≤ n + 1 := hl
        simp only [List.length_cons] at this
        omega

end ScanFreedom

section CleanupFreedom

theorem trySpaceRun_stepOk :
    ∀ x re r, trySpaceRun x = some (re, r) →
      (∀ d ∈ re, inUrlClass d = false) ∧ (∃ n, r = x.drop n) ∧
      (re = [] → ∀ d ds, r = d :: ds → inUrlClass d = false) := by
  intro x re r h
  rw [trySpaceRun.eq_def] at h
  split at h
  rotate_left
  · exact absurd h (by simp)
  rename_i c d r2
  split at h
  · rcases dropWhile_exists_drop isSpTab (d :: r2) with ⟨n, hn⟩
    cases h
    refine ⟨?_, ⟨n + 1, by rw [hn]; rfl⟩, ?_⟩
    · intro e he
      rw [List.mem_singleton.mp he]
      decide
    · intro hcontra
      exact absurd hcontra (by simp)
  · exact absurd h (by simp)

theorem tryNlRun_stepOk :
    ∀ x re r, tryNlRun x = some (re, r) →
      (∀ d ∈ re, inUrlClass d = false) ∧ (∃ n, r = x.drop n) ∧
      (re = [] → ∀ d ds, r = d :: ds → inUrlClass d = false) := by
  intro x re r h
  rw [tryNlRun.eq_def] at h
  split at h
  · rename_i r2
    rcases dropWhile_exists_drop (fun c => c = '\n') r2 with ⟨n, hn⟩
    cases h
    refine ⟨?_, ⟨n + 3, by rw [hn]; rfl⟩, ?_⟩
    · intro e he
      rcases List.mem_cons.mp he with rfl | he2
      · decide
      · rw [List.mem_singleton.mp he2]
        decide
    · intro hcontra
      exact absurd hcontra (by simp)
  · exact absurd h (by simp)

theorem dropEndWhile_append (p : Char → Bool) (y : List Char) :
    ∃ e, y = dropEndWhile p y ++ e := by
  refine ⟨(y.reverse.takeWhile p).reverse, ?_⟩
  unfold dropEndWhile
  rw [← List.reverse_append (y.reverse.takeWhile p) (y.reverse.dropWhile p),
    List.takeWhile_append_dropWhile, List.reverse_reverse]

end CleanupFreedom

theorem hasBareUrl_jsTrimL {l : List Char} (h : hasBareUrl l = false) :
    hasBareUrl (jsTrimL l) = false := by
  unfold jsTrimL
  have h1 : hasBareUrl (l.dropWhile jsIsSpace) = false := by
    rcases dropWhile_exists_drop jsIsSpace l with ⟨n, hn⟩
    rw [hn]
    exact hasBareUrl_drop_false n l h
  rcases dropEndWhile_append jsIsSpace (l.dropWhile jsIsSpace) with ⟨e, he⟩
  refine hasBareUrl_append_right_false _ e ?_
  rw [← he]
  exact h1

theorem slPasses_no_bare (l : List Char) : hasBareUrl (slPasses l) = false := by
  simp only [slPasses]
  have h3 : hasBareUrl (runA tryBare (runA tryAngle (runA tryLink l))) = false := by
    unfold runA
    exact gscan_tryBare_clears _ _ (Nat.le_succ _)
  have h4 : hasBareUrl (runA trySpaceRun
      (runA tryBare (runA tryAngle (runA tryLink l)))) = false := by
    unfold runA
    exact gscan_no_new_bare trySpaceRun trySpaceRun_stepOk _ _ h3
  have h5 : hasBareUrl (runA tryNlRun (runA trySpaceRun
      (runA tryBare (runA tryAngle (runA tryLink l))))) = false := by
    unfold runA
    unfold runA at h4
    exact gscan_no_new_bare tryNlRun tryNlRun_stepOk _ _ h4
  exact hasBareUrl_jsTrimL h5

theorem slerLoop_eq_zip : ∀ (ls : List (List Char)) (b : Bool),
    slerLoop ls b = List.zipWith (fun keep l => if keep then l else slPasses l)
      (regionFlags ls b) ls := by
  intro ls
  induction ls with
  | nil => intro b; rfl
  | cons l ls2 ih =>
    intro b
    by_cases ho : recResOpen (slerNormalizeL l) = true
    · simp only [slerLoop, regionFlags, ho, if_pos, List.zipWith_cons_cons,
        if_true, ih true]
    · simp only [slerLoop, regionFlags, ho, if_neg, List.zipWith_cons_cons,
        Bool.false_eq_true, ite_false, ih]

/-- C1 counterexample: the claimed sanitizer property fails on the
code.  (1) The single non-heading line `see http://a.com http://`
contains the URL `http://a.com`, yet its sanitized output
`see http://` still contains the substring `http://` (the dangling
scheme is not matched by `https?:\/\/[^\s)]+`, which requires a
following character).  (2) The in-region line `https://a.com  ` (with
trailing spaces) does not appear byte-identically in the output: the
final `trim()` removes the trailing whitespace, so the output contains
no occurrence of that line. -/
theorem c1_counterexample :
    containsSeg "http://".data
      (stripLinksExceptRecommendedResources "see http://a.com http://").data
      = true ∧
    containsSeg "https://a.com  ".data
      (stripLinksExceptRecommendedResources
        "Recommended Resources\nhttps://a.com  ").data = false := by
  constructor
  · decide
  · decide

/-- C1 (amended): the sanitizer's region policy as the code enforces
it.  (1) Outside guarantee: for every input, `stripLinksFromMarkdown`
leaves no matchable bare URL — no `http://` or `https?://` scheme
followed by a non-space, non-`)` character — anywhere in its output
(a dangling scheme with nothing usable after it may survive).
(2) Region guarantee: `stripLinksExceptRecommendedResources` is
exactly the per-line choice "keep the line verbatim inside a
Recommended Resources region, else replace it by its
`stripLinksFromMarkdown` image" (flags computed by the region scan),
joined with newlines and then subjected to the document-level cleanup
(collapse of 3+ newline runs and end trimming), which may still drop
blank lines or edge whitespace of verbatim region lines. -/
theorem c1_sanitizer_policy :
    (∀ s : String, hasBareUrl (stripLinksFromMarkdown s).data = false) ∧
    (∀ md : String, stripLinksExceptRecommendedResources md =
      ⟨jsTrimL (runA tryNlRun (joinNl (List.zipWith
        (fun keep l => if keep then l else slPasses l)
        (regionFlags (splitLinesL md.data) false)
        (splitLinesL md.data))))⟩) := by
  constructor
  · intro s
    by_cases hs : s = ""
    · subst hs; rfl
    · show hasBareUrl (if s = "" then "" else
        (⟨slPasses s.data⟩ : String)).data = false
      rw [if_neg hs]
      exact slPasses_no_bare s.data
  · intro md
    by_cases hmd : md = ""
    · subst hmd; decide
    · show (if md = "" then "" else
        (⟨jsTrimL (runA tryNlRun (joinNl (slerLoop (splitLinesL md.data)
          false)))⟩ : String)) = _
      rw [if_neg hmd, slerLoop_eq_zip]
